import Mathlib

/-!
Shallow embedding of the Auto-Graph graph-synthesis pipeline
(`src/utils/file_utils.py`, `src/parser/file_parser.py`,
`src/llm_integration/relationship_mapper.py`,
`src/graph_builder/enhanced_graph_builder.py`, `build_viz_draft.py`),
together with theorems settling the specification claims about it.

Python dicts are modelled as association lists with insertion-order
semantics (later assignment to an existing key replaces the value in
place; new keys append).  Python sets whose iteration order the code
relies on are modelled by the insertion-ordered list of their elements,
together with an explicit reordering oracle wherever iteration order is
observable (CPython string hashing is randomised per process, so set
iteration order is not reproducible across runs).
-/

/-! ## Generic helpers: strings and Python-style dicts -/

/-- Lexicographic order on character lists by code point, the comparison
Python uses on `str`.  (Defined from scratch so that it evaluates inside
the kernel.) -/
def lexLe : List Char → List Char → Bool
  | [], _ => true
  | _ :: _, [] => false
  | a :: as, b :: bs =>
    if a.toNat < b.toNat then true
    else if b.toNat < a.toNat then false
    else lexLe as bs

/-- Python `a <= b` on strings. -/
def strLe (a b : String) : Bool := lexLe a.data b.data

/-- Python `a < b` on strings. -/
def strLt (a b : String) : Bool := strLe a b && !(a == b)

theorem lexLe_total : ∀ a b : List Char, lexLe a b = true ∨ lexLe b a = true
  | [], _ => Or.inl rfl
  | _ :: _, [] => Or.inr rfl
  | a :: as, b :: bs => by
    rcases Nat.lt_trichotomy a.toNat b.toNat with h | h | h
    · left; simp [lexLe, h]
    · rcases lexLe_total as bs with h2 | h2
      · left; simp [lexLe, h, h2]
      · right; simp [lexLe, h.symm, h2]
    · right; simp [lexLe, h]

theorem lexLe_trans : ∀ a b c : List Char,
    lexLe a b = true → lexLe b c = true → lexLe a c = true
  | [], _, _ => by intro _ _; rfl
  | _ :: _, [], _ => by intro h _; exact absurd h (by simp [lexLe])
  | _ :: _, _ :: _, [] => by intro _ h; exact absurd h (by simp [lexLe])
  | a :: as, b :: bs, c :: cs => by
    intro hab hbc
    simp only [lexLe] at hab hbc ⊢
    rcases Nat.lt_trichotomy a.toNat b.toNat with h1 | h1 | h1
    · rcases Nat.lt_trichotomy b.toNat c.toNat with h2 | h2 | h2
      · simp [show a.toNat < c.toNat from by omega]
      · simp [show a.toNat < c.toNat from by omega]
      · simp [show ¬ b.toNat < c.toNat from by omega, h2] at hbc
    · rcases Nat.lt_trichotomy b.toNat c.toNat with h2 | h2 | h2
      · simp [show a.toNat < c.toNat from by omega]
      · simp [show ¬ a.toNat < b.toNat from by omega,
              show ¬ b.toNat < a.toNat from by omega] at hab
        simp [show ¬ b.toNat < c.toNat from by omega,
              show ¬ c.toNat < b.toNat from by omega] at hbc
        simp [show ¬ a.toNat < c.toNat from by omega,
              show ¬ c.toNat < a.toNat from by omega]
        exact lexLe_trans as bs cs hab hbc
      · simp [show ¬ b.toNat < c.toNat from by omega, h2] at hbc
    · simp [show ¬ a.toNat < b.toNat from by omega, h1] at hab

theorem lexLe_antisymm : ∀ a b : List Char,
    lexLe a b = true → lexLe b a = true → a = b
  | [], [] => by intro _ _; rfl
  | [], _ :: _ => by intro _ h; exact absurd h (by simp [lexLe])
  | _ :: _, [] => by intro h _; exact absurd h (by simp [lexLe])
  | a :: as, b :: bs => by
    intro hab hba
    simp only [lexLe] at hab hba
    rcases Nat.lt_trichotomy a.toNat b.toNat with h1 | h1 | h1
    · simp [show ¬ b.toNat < a.toNat from by omega, h1] at hba
    · have ha : a = b := Char.eq_of_val_eq (UInt32.toNat.inj h1)
      simp [show ¬ a.toNat < b.toNat from by omega,
            show ¬ b.toNat < a.toNat from by omega] at hab hba
      cases ha
      exact congrArg (a :: ·) (lexLe_antisymm as bs hab hba)
    · simp [show ¬ a.toNat < b.toNat from by omega, h1] at hab

theorem strLe_antisymm (a b : String) (h1 : strLe a b = true)
    (h2 : strLe b a = true) : a = b := by
  cases a; cases b
  exact congrArg String.mk (lexLe_antisymm _ _ h1 h2)

/-- Lower-case a string character by character (Python `str.lower`). -/
def lowerStr (s : String) : String := ⟨s.data.map Char.toLower⟩

/-- Auxiliary traversal for the Python `in` substring test. -/
def containsSubAux (n : List Char) : List Char → Bool
  | [] => List.isPrefixOf n []
  | c :: t => List.isPrefixOf n (c :: t) || containsSubAux n t

/-- Python substring containment: `needle in hay`. -/
def strContainsSub (hay needle : String) : Bool :=
  containsSubAux needle.data hay.data

/-- Python `str.replace('\\', '/')` used to normalise path separators. -/
def slashNorm (s : String) : String :=
  ⟨s.data.map (fun c => if c = '\\' then '/' else c)⟩

/-- Split a character list on a separator character (Python `str.split(sep)`). -/
def splitOnChar (c : Char) : List Char → List (List Char)
  | [] => [[]]
  | x :: t =>
    if x = c then [] :: splitOnChar c t
    else match splitOnChar c t with
      | h :: r => (x :: h) :: r
      | [] => [[x]]

/-- String split on a single-character separator. -/
def splitStr (c : Char) (s : String) : List String :=
  (splitOnChar c s.data).map (fun l => ⟨l⟩)

/-- Index of the last `'.'` in a character list, if any (Python `str.rfind('.')`). -/
def lastDotIdx (l : List Char) : Option Nat :=
  ((l.enum.filter (fun p => p.2 = '.')).getLast?).map (fun p => p.1)

/-- `PurePath.suffix`: the extension of a file name, `""` when the last dot
is leading or trailing. -/
def nameSuffix (name : String) : String :=
  match lastDotIdx name.data with
  | some i => if 0 < i ∧ i < name.data.length - 1 then ⟨name.data.drop i⟩ else ""
  | none => ""

/-- `PurePath.stem`: the file name with its `nameSuffix` removed. -/
def nameStem (name : String) : String :=
  match lastDotIdx name.data with
  | some i => if 0 < i ∧ i < name.data.length - 1 then ⟨name.data.take i⟩ else name
  | none => name

/-- Last path component of a `/`-separated path string (`PurePath.name`). -/
def pathName (p : String) : String := (splitStr '/' (slashNorm p)).getLastD ""

/-- `PurePath.stem` of a full path string. -/
def pathStem (p : String) : String := nameStem (pathName p)

/-- Name of the parent directory of a path (`Path(p).parent.name`). -/
def parentDirName (p : String) : String :=
  ((splitStr '/' (slashNorm p)).dropLast).getLastD ""

/-- The part of `hay` strictly after the first occurrence of `pat`
(Python `hay.split(pat, 1)[1]`), or `none` when `pat` does not occur. -/
def splitAfterAux (pat : List Char) : List Char → Option (List Char)
  | [] => if List.isPrefixOf pat [] then some ([].drop pat.length) else none
  | c :: t =>
    if List.isPrefixOf pat (c :: t) then some ((c :: t).drop pat.length)
    else splitAfterAux pat t

/-- String version of `splitAfterAux`. -/
def splitAfter (hay pat : String) : Option String :=
  (splitAfterAux pat.data hay.data).map (fun l => ⟨l⟩)

/-- Dict assignment `m[k] = v`: replace in place when the key exists,
append otherwise. -/
def dictInsert {β : Type} (m : List (String × β)) (k : String) (v : β) :
    List (String × β) :=
  if m.any (fun p => p.1 = k) then
    m.map (fun p => if p.1 = k then (k, v) else p)
  else m ++ [(k, v)]

/-- `defaultdict(list)` append: `m[k].append(v)`. -/
def dictAppend {β : Type} (m : List (String × List β)) (k : String) (v : β) :
    List (String × List β) :=
  if m.any (fun p => p.1 = k) then
    m.map (fun p => if p.1 = k then (p.1, p.2 ++ [v]) else p)
  else m ++ [(k, [v])]

/-- Keep the first occurrence of every element (Python set insertion order). -/
def dedupFirst (l : List String) : List String :=
  l.foldl (fun acc a => if a ∈ acc then acc else acc ++ [a]) []

theorem dictInsert_keys_mem {β : Type} (m : List (String × β)) (k k' : String)
    (v : β) (h : k' ∈ m.map Prod.fst) : k' ∈ (dictInsert m k v).map Prod.fst := by
  unfold dictInsert
  split
  · rcases List.mem_map.1 h with ⟨p, hp, rfl⟩
    refine List.mem_map.2 ⟨(if p.1 = k then (k, v) else p), List.mem_map_of_mem _ hp, ?_⟩
    by_cases hpk : p.1 = k <;> simp [hpk]
  · simp only [List.map_append, List.mem_append]
    exact Or.inl h

theorem dictInsert_self_key_mem {β : Type} (m : List (String × β)) (k : String)
    (v : β) : k ∈ (dictInsert m k v).map Prod.fst := by
  unfold dictInsert
  split
  · next hk =>
    rcases List.any_eq_true.1 hk with ⟨p, hp, hpk⟩
    refine List.mem_map.2 ⟨(k, v), List.mem_map.2 ⟨p, hp, ?_⟩, rfl⟩
    simp [of_decide_eq_true hpk]
  · simp

theorem dictInsert_inserted_mem {β : Type} (m : List (String × β)) (k : String)
    (v : β) : (k, v) ∈ dictInsert m k v := by
  unfold dictInsert
  split
  · next hk =>
    rcases List.any_eq_true.1 hk with ⟨p, hp, hpk⟩
    refine List.mem_map.2 ⟨p, hp, ?_⟩
    simp [of_decide_eq_true hpk]
  · simp

theorem dictInsert_mem_stable {β : Type} (m : List (String × β)) (k : String)
    (v : β) (k' : String) (v' : β) (h : (k', v') ∈ m)
    (hcompat : k = k' → v = v') : (k', v') ∈ dictInsert m k v := by
  unfold dictInsert
  split
  · refine List.mem_map.2 ⟨(k', v'), h, ?_⟩
    by_cases hkk : k' = k
    · subst hkk; simp [hcompat rfl]
    · simp [hkk]
  · exact List.mem_append.2 (Or.inl h)

/-! ## Codebase Scanner (`src/utils/file_utils.py`)

A filesystem walk is modelled as the list of entries yielded by
`Path.rglob('*')`, in the operating system's enumeration order (pathlib
performs no sorting). -/

/-- One entry of the recursive directory walk. -/
structure WalkEntry where
  parts : List String
  isFile : Bool
deriving DecidableEq, Repr

/-- `PurePath.name` of a walk entry. -/
def entryName (e : WalkEntry) : String := e.parts.getLastD ""

/-- `PurePath.suffix` of a walk entry. -/
def entrySuffix (e : WalkEntry) : String := nameSuffix (entryName e)

/-- Rendered path of a walk entry. -/
def entryPath (e : WalkEntry) : String := String.intercalate "/" e.parts

/-- `FileUtils.SUPPORTED_EXTENSIONS`. -/
def SUPPORTED_EXTENSIONS : List String :=
  [".py", ".js", ".jsx", ".ts", ".tsx", ".java", ".go", ".rb", ".php",
   ".html", ".css", ".json", ".xml", ".yaml", ".yml", ".md", ".txt"]

/-- `FileUtils.EXCLUDE_DIRS` (the `*.egg-info` entry is compared literally,
exactly as the source's `part in EXCLUDE_DIRS` does). -/
def EXCLUDE_DIRS : List String :=
  [".git", ".svn", ".hg", "__pycache__", "node_modules", ".venv", "venv",
   "env", ".env", "build", "dist", "target", "bin", "obj", ".pytest_cache",
   ".coverage", ".mypy_cache", ".tox", ".eggs", "*.egg-info"]

/-- `FileUtils.EXCLUDE_FILES`. -/
def EXCLUDE_FILES : List String :=
  [".DS_Store", "Thumbs.db", ".gitignore", ".gitattributes",
   "*.pyc", "*.pyo", "*.pyd", "*.so", "*.dll", "*.dylib"]

/-- One exclude-file pattern test: glob-star patterns match by suffix,
others by exact name. -/
def matchesExcludePattern (name pat : String) : Bool :=
  if pat.data.head? = some '*' then
    List.isSuffixOf (pat.data.drop 1) name.data
  else name = pat

/-- `FileUtils.should_include_file`. -/
def shouldIncludeFile (e : WalkEntry) : Bool :=
  if (lowerStr (entrySuffix e)) ∉ SUPPORTED_EXTENSIONS then false
  else if e.parts.any (fun part => part ∈ EXCLUDE_DIRS) then false
  else if EXCLUDE_FILES.any (fun pat => matchesExcludePattern (entryName e) pat) then false
  else true

/-- `FileUtils.discover_files`: append every walk entry that is a file and
passes the include filter, in walk order. -/
def discoverFiles (walk : List WalkEntry) : List WalkEntry :=
  walk.foldl (fun acc e => if e.isFile && shouldIncludeFile e then acc ++ [e] else acc) []

/-- The claim of C5 as stated: the discovery list is lexicographically
sorted for every walk. -/
def claimC5 : Prop :=
  ∀ walk : List WalkEntry,
    List.Pairwise (fun a b => strLe (entryPath a) (entryPath b) = true)
      (discoverFiles walk)

theorem discoverFiles_aux_eq (walk : List WalkEntry) (acc : List WalkEntry) :
    walk.foldl (fun acc e => if e.isFile && shouldIncludeFile e then acc ++ [e] else acc) acc
      = acc ++ walk.filter (fun e => e.isFile && shouldIncludeFile e) := by
  induction walk generalizing acc with
  | nil => simp
  | cons e t ih =>
    rw [List.foldl_cons, List.filter_cons]
    by_cases he : (e.isFile && shouldIncludeFile e) = true
    · rw [if_pos he, if_pos he, ih, List.append_assoc]
      rfl
    · rw [if_neg he, if_neg he, ih]

/-- C5, corrected. The discovery step performs no sorting: its output is
exactly the subsequence of the filesystem walk passing the include filter,
in the walk's own enumeration order. -/
theorem claim_C5_thm (walk : List WalkEntry) :
    discoverFiles walk = walk.filter (fun e => e.isFile && shouldIncludeFile e)
      ∧ (discoverFiles walk).Sublist walk := by
  have h : discoverFiles walk
      = walk.filter (fun e => e.isFile && shouldIncludeFile e) := by
    unfold discoverFiles
    simpa using discoverFiles_aux_eq walk []
  exact ⟨h, h ▸ List.filter_sublist walk⟩

/-- C5 counterexample: a walk that enumerates `b.py` before `a.py` is
returned in that order, which is not lexicographically sorted. -/
theorem claim_C5_cex : ¬ claimC5 := by
  intro h
  have h2 := h [⟨["b.py"], true⟩, ⟨["a.py"], true⟩]
  have h3 : discoverFiles [⟨["b.py"], true⟩, ⟨["a.py"], true⟩]
      = [⟨["b.py"], true⟩, ⟨["a.py"], true⟩] := by decide
  rw [h3] at h2
  have h4 := List.rel_of_pairwise_cons h2 (List.mem_singleton.2 rfl)
  exact absurd h4 (by decide)

/-! ## File parser (`src/parser/file_parser.py`, `src/parser/ast_parser.py`)

A file to parse carries its walk entry and, for Python files, the outcome
of `PythonASTParser.parse_file` (`none` models a syntax error or any other
parse failure; `some` carries the extracted symbol names).  Non-Python
files are handled by `_parse_generic_file`, which never consults a parser. -/

/-- Extracted symbol names of a successfully parsed Python file. -/
structure PySyms where
  imports : List String
  functions : List String
  classes : List String
deriving DecidableEq, Repr

/-- A discovered file, as handed to `FileParser._parse_single_file`. -/
structure TFile where
  path : WalkEntry
  pyParse : Option PySyms
deriving DecidableEq, Repr

/-- `file_path.suffix.lower() == '.py'`. -/
def isPyFile (f : TFile) : Bool := lowerStr (entrySuffix f.path) = ".py"

/-- One record of `FileParser.parsed_files`. -/
structure ParsedEntry where
  imports : List String
  functions : List String
  classes : List String
deriving DecidableEq, Repr

/-- The record `_parse_generic_file` stores for every non-Python file. -/
def emptyEntry : ParsedEntry := ⟨[], [], []⟩

/-- Mutable state of a `FileParser` during `parse_codebase`. -/
structure ParseState where
  parsedFiles : List (String × ParsedEntry)
  failedFiles : List String
  successfulParses : Nat
deriving DecidableEq, Repr

/-- `FileParser._parse_single_file`: Python files succeed or fail according
to the AST parse outcome; all other files are recorded by
`_parse_generic_file`, which always succeeds with empty symbol lists. -/
def parseSingleFile (st : ParseState) (f : TFile) : ParseState :=
  if isPyFile f then
    match f.pyParse with
    | some syms =>
      { st with
        parsedFiles := dictInsert st.parsedFiles (entryPath f.path)
          ⟨syms.imports, syms.functions, syms.classes⟩
        successfulParses := st.successfulParses + 1 }
    | none =>
      { st with failedFiles := st.failedFiles ++ [entryPath f.path] }
  else
    { st with
      parsedFiles := dictInsert st.parsedFiles (entryPath f.path) emptyEntry
      successfulParses := st.successfulParses + 1 }

/-- Result of `FileParser.parse_codebase` (`_create_parsing_result`). -/
structure ParseResult where
  parsedFiles : List (String × ParsedEntry)
  failedFiles : List String
  totalFiles : Nat
  successfulParses : Nat
  coveragePercentage : ℚ
deriving DecidableEq, Repr

/-- `FileParser.parse_codebase` over an already-discovered file list. -/
def parseCodebase (files : List TFile) : ParseResult :=
  let st := files.foldl parseSingleFile ⟨[], [], 0⟩
  { parsedFiles := st.parsedFiles
    failedFiles := st.failedFiles
    totalFiles := files.length
    successfulParses := st.successfulParses
    coveragePercentage :=
      if 0 < files.length then
        (st.successfulParses : ℚ) / (files.length : ℚ) * 100
      else 100 }

/-- Whether `_parse_single_file` counts a file as successfully parsed. -/
def parseOk (f : TFile) : Bool := if isPyFile f then f.pyParse.isSome else true

/-- The `parsed_files` record a file produces when its parse succeeds. -/
def okEntry (f : TFile) : ParsedEntry :=
  if isPyFile f then
    match f.pyParse with
    | some syms => ⟨syms.imports, syms.functions, syms.classes⟩
    | none => emptyEntry
  else emptyEntry

theorem parseSingleFile_ok (st : ParseState) (f : TFile) (h : parseOk f = true) :
    parseSingleFile st f =
      { st with
        parsedFiles := dictInsert st.parsedFiles (entryPath f.path) (okEntry f)
        successfulParses := st.successfulParses + 1 } := by
  unfold parseSingleFile okEntry
  unfold parseOk at h
  by_cases hpy : isPyFile f = true
  · rw [if_pos hpy, if_pos hpy]
    rw [if_pos hpy] at h
    rcases hsome : f.pyParse with _ | syms
    · rw [hsome] at h; simp at h
    · rfl
  · rw [if_neg hpy, if_neg hpy]

theorem parseSingleFile_fail (st : ParseState) (f : TFile) (h : parseOk f = false) :
    parseSingleFile st f =
      { st with failedFiles := st.failedFiles ++ [entryPath f.path] } := by
  unfold parseSingleFile
  unfold parseOk at h
  by_cases hpy : isPyFile f = true
  · rw [if_pos hpy]
    rw [if_pos hpy] at h
    rcases hsome : f.pyParse with _ | syms
    · rfl
    · rw [hsome] at h; simp at h
  · rw [if_neg hpy]
    rw [if_neg hpy] at h
    simp at h

theorem parseFold_success (files : List TFile) (st : ParseState) :
    (files.foldl parseSingleFile st).successfulParses
      = st.successfulParses + (files.filter parseOk).length := by
  induction files generalizing st with
  | nil => simp
  | cons f t ih =>
    rw [List.foldl_cons, List.filter_cons, ih]
    by_cases h : parseOk f = true
    · rw [parseSingleFile_ok st f h, if_pos h]
      simp [Nat.add_assoc, Nat.add_comm 1]
    · rw [parseSingleFile_fail st f (Bool.eq_false_iff.2 h), if_neg h]

theorem parseFold_failed (files : List TFile) (st : ParseState) :
    (files.foldl parseSingleFile st).failedFiles
      = st.failedFiles
        ++ (files.filter (fun f => !parseOk f)).map (fun f => entryPath f.path) := by
  induction files generalizing st with
  | nil => simp
  | cons f t ih =>
    rw [List.foldl_cons, List.filter_cons, ih]
    by_cases h : parseOk f = true
    · rw [parseSingleFile_ok st f h]
      simp [h]
    · rw [parseSingleFile_fail st f (Bool.eq_false_iff.2 h)]
      simp [h, List.append_assoc]

theorem parseFold_keys_mono (files : List TFile) (st : ParseState) (k : String)
    (h : k ∈ st.parsedFiles.map Prod.fst) :
    k ∈ (files.foldl parseSingleFile st).parsedFiles.map Prod.fst := by
  induction files generalizing st with
  | nil => exact h
  | cons f t ih =>
    rw [List.foldl_cons]
    by_cases hok : parseOk f = true
    · rw [parseSingleFile_ok st f hok]
      exact ih _ (dictInsert_keys_mem _ _ _ _ h)
    · rw [parseSingleFile_fail st f (Bool.eq_false_iff.2 hok)]
      exact ih _ h

theorem parseFold_pair_stable (files : List TFile) (st : ParseState)
    (k : String) (v : ParsedEntry) (h : (k, v) ∈ st.parsedFiles)
    (hc : ∀ f ∈ files, entryPath f.path = k → parseOk f = true → okEntry f = v) :
    (k, v) ∈ (files.foldl parseSingleFile st).parsedFiles := by
  induction files generalizing st with
  | nil => exact h
  | cons f t ih =>
    rw [List.foldl_cons]
    by_cases hok : parseOk f = true
    · rw [parseSingleFile_ok st f hok]
      refine ih _ (dictInsert_mem_stable _ _ _ _ _ h ?_) ?_
      · intro hkey
        exact hc f (List.mem_cons_self f t) hkey hok
      · intro g hg hkey hgok
        exact hc g (List.mem_cons_of_mem f hg) hkey hgok
    · rw [parseSingleFile_fail st f (Bool.eq_false_iff.2 hok)]
      exact ih _ h fun g hg hkey hgok => hc g (List.mem_cons_of_mem f hg) hkey hgok

/-- C8: a per-file parse failure (e.g. a syntax error in a Python file)
never aborts `parse_codebase`: the file is recorded in `failed_files`, is
counted in `total_files` but not in `successful_parses`, and every other
successfully parsed file still appears in `parsed_files`. -/
theorem claim_C8_thm (files : List TFile) (f : TFile) (hf : f ∈ files)
    (hpy : isPyFile f = true) (herr : f.pyParse = none) :
    entryPath f.path ∈ (parseCodebase files).failedFiles
    ∧ (parseCodebase files).totalFiles = files.length
    ∧ (parseCodebase files).successfulParses = (files.filter parseOk).length
    ∧ parseOk f = false
    ∧ (∀ g ∈ files, parseOk g = true →
        entryPath g.path ∈ (parseCodebase files).parsedFiles.map Prod.fst) := by
  have hfail : parseOk f = false := by
    unfold parseOk
    rw [if_pos hpy, herr]
    rfl
  refine ⟨?_, rfl, ?_, hfail, ?_⟩
  · show entryPath f.path ∈ (files.foldl parseSingleFile ⟨[], [], 0⟩).failedFiles
    rw [parseFold_failed]
    refine List.mem_append.2 (Or.inr (List.mem_map.2 ⟨f, ?_, rfl⟩))
    exact List.mem_filter.2 ⟨hf, by rw [hfail]; rfl⟩
  · show (files.foldl parseSingleFile ⟨[], [], 0⟩).successfulParses = _
    rw [parseFold_success]
    exact Nat.zero_add _
  · intro g hg hgok
    rcases List.mem_iff_append.1 hg with ⟨l1, l2, rfl⟩
    show entryPath g.path ∈ ((l1 ++ g :: l2).foldl parseSingleFile ⟨[], [], 0⟩).parsedFiles.map Prod.fst
    rw [List.foldl_append, List.foldl_cons]
    rw [parseSingleFile_ok _ g hgok]
    exact parseFold_keys_mono l2 _ _ (dictInsert_self_key_mem _ _ _)

/-- C8 witness data: a two-file codebase where `bad.py` has a syntax error
and `good.py` parses. -/
def c8Files : List TFile :=
  [⟨⟨["bad.py"], true⟩, none⟩,
   ⟨⟨["good.py"], true⟩, some ⟨["os"], ["run"], []⟩⟩]

theorem claim_C8_witness :
    (⟨⟨["bad.py"], true⟩, none⟩ : TFile) ∈ c8Files
    ∧ isPyFile ⟨⟨["bad.py"], true⟩, none⟩ = true
    ∧ entryPath (⟨["bad.py"], true⟩ : WalkEntry) ∈ (parseCodebase c8Files).failedFiles
    ∧ (parseCodebase c8Files).successfulParses = 1 := by
  have h := claim_C8_thm c8Files ⟨⟨["bad.py"], true⟩, none⟩
    (by decide) (by decide) rfl
  refine ⟨by decide, by decide, h.1, ?_⟩
  rw [h.2.2.1]
  decide

theorem covRatio_step_le (s n : ℕ) (hsn : s ≤ n) (hn : 0 < n) :
    (s : ℚ) / (n : ℚ) * 100 ≤ ((s : ℚ) + 1) / ((n : ℚ) + 1) * 100 := by
  have hlen : (0 : ℚ) < (n : ℚ) := by exact_mod_cast hn
  have hlen1 : (0 : ℚ) < (n : ℚ) + 1 := by linarith
  have hq : (s : ℚ) ≤ (n : ℚ) := by exact_mod_cast hsn
  rw [mul_comm, mul_comm (_ / _) 100]
  apply mul_le_mul_of_nonneg_left _ (by norm_num : (0:ℚ) ≤ 100)
  rw [div_le_div_iff hlen hlen1]
  nlinarith

theorem covRatio_step_lt (s n : ℕ) (hsn : s < n) (hn : 0 < n) :
    (s : ℚ) / (n : ℚ) * 100 < ((s : ℚ) + 1) / ((n : ℚ) + 1) * 100 := by
  have hlen : (0 : ℚ) < (n : ℚ) := by exact_mod_cast hn
  have hlen1 : (0 : ℚ) < (n : ℚ) + 1 := by linarith
  have hq : (s : ℚ) < (n : ℚ) := by exact_mod_cast hsn
  rw [mul_comm, mul_comm (_ / _) 100]
  apply mul_lt_mul_of_pos_left _ (by norm_num : (0:ℚ) < 100)
  rw [div_lt_div_iff hlen hlen1]
  nlinarith

theorem coverage_append_ok (gs : List TFile) (g : TFile)
    (hok : parseOk g = true) :
    (parseCodebase gs).coveragePercentage
      ≤ (parseCodebase (gs ++ [g])).coveragePercentage := by
  unfold parseCodebase
  simp only [parseFold_success, List.filter_append, List.filter_cons,
    List.length_append, Nat.zero_add, hok, if_true, List.filter_nil,
    List.length_cons, List.length_nil]
  rcases Nat.eq_zero_or_pos gs.length with h0 | hpos
  · have hg0 : gs = [] := List.length_eq_zero.1 h0
    subst hg0
    norm_num
  · rw [if_pos hpos, if_pos (Nat.lt_of_lt_of_le hpos (Nat.le_add_right _ _))]
    have := covRatio_step_le (gs.filter parseOk).length gs.length
      (List.length_filter_le _ _) hpos
    push_cast
    push_cast at this
    convert this using 2 <;> push_cast <;> ring

theorem coverage_append_strict (gs : List TFile) (g : TFile)
    (hok : parseOk g = true) (b : TFile) (hb : b ∈ gs)
    (hbad : parseOk b = false) :
    (parseCodebase gs).coveragePercentage
      < (parseCodebase (gs ++ [g])).coveragePercentage := by
  unfold parseCodebase
  simp only [parseFold_success, List.filter_append, List.filter_cons,
    List.length_append, Nat.zero_add, hok, if_true, List.filter_nil,
    List.length_cons, List.length_nil]
  have hpos : 0 < gs.length :=
    List.length_pos.2 (by rintro rfl; exact (List.not_mem_nil b) hb)
  rw [if_pos hpos, if_pos (Nat.lt_of_lt_of_le hpos (Nat.le_add_right _ _))]
  have hsn : (gs.filter parseOk).length < gs.length := by
    refine List.length_filter_lt_length_iff_exists.2 ⟨b, hb, ?_⟩
    simp [hbad]
  have := covRatio_step_lt (gs.filter parseOk).length gs.length hsn hpos
  push_cast
  push_cast at this
  convert this using 2 <;> push_cast <;> ring

/-- C10: every non-Python file with a supported extension is recorded as
successfully parsed with empty symbol lists, never appears in
`failed_files`, counts toward `successful_parses`, and appending such a
file to a run never lowers (and, in the presence of any failed file,
strictly raises) the reported coverage percentage. -/
theorem claim_C10_thm (files : List TFile) (f : TFile) (hf : f ∈ files)
    (hnp : isPyFile f = false)
    (huniq : ∀ g ∈ files, entryPath g.path = entryPath f.path → g = f) :
    (entryPath f.path, emptyEntry) ∈ (parseCodebase files).parsedFiles
    ∧ entryPath f.path ∉ (parseCodebase files).failedFiles
    ∧ parseOk f = true
    ∧ (parseCodebase files).successfulParses = (files.filter parseOk).length
    ∧ (∀ (gs : List TFile) (g : TFile), isPyFile g = false →
        (parseCodebase gs).coveragePercentage
          ≤ (parseCodebase (gs ++ [g])).coveragePercentage)
    ∧ (∀ (gs : List TFile) (g : TFile), isPyFile g = false →
        (∀ b ∈ gs, parseOk b = false →
          (parseCodebase gs).coveragePercentage
            < (parseCodebase (gs ++ [g])).coveragePercentage)) := by
  have hok : parseOk f = true := by
    unfold parseOk
    rw [if_neg (by simp [hnp])]
  have hentry : okEntry f = emptyEntry := by
    unfold okEntry
    rw [if_neg (by simp [hnp])]
  refine ⟨?_, ?_, hok, ?_, ?_, ?_⟩
  · rcases List.mem_iff_append.1 hf with ⟨l1, l2, rfl⟩
    show (entryPath f.path, emptyEntry)
      ∈ ((l1 ++ f :: l2).foldl parseSingleFile ⟨[], [], 0⟩).parsedFiles
    rw [List.foldl_append, List.foldl_cons, parseSingleFile_ok _ f hok, hentry]
    refine parseFold_pair_stable l2 _ _ _ (dictInsert_inserted_mem _ _ _) ?_
    intro g hg hkey hgok
    have hgf : g = f := huniq g (by simp [hg]) hkey
    rw [hgf, hentry]
  · intro hmem
    have : entryPath f.path
        ∈ ((files.foldl parseSingleFile ⟨[], [], 0⟩)).failedFiles := hmem
    rw [parseFold_failed] at this
    rcases List.mem_append.1 this with h0 | h1
    · exact (List.not_mem_nil _) h0
    · rcases List.mem_map.1 h1 with ⟨g, hgfil, hgpath⟩
      rcases List.mem_filter.1 hgfil with ⟨hgmem, hgbad⟩
      have hgf : g = f := huniq g hgmem hgpath
      rw [hgf] at hgbad
      rw [hok] at hgbad
      exact absurd hgbad (by decide)
  · show (files.foldl parseSingleFile ⟨[], [], 0⟩).successfulParses = _
    rw [parseFold_success]
    exact Nat.zero_add _
  · intro gs g hg
    refine coverage_append_ok gs g ?_
    unfold parseOk
    rw [if_neg (by simp [hg])]
  · intro gs g hg b hb hbad
    refine coverage_append_strict gs g ?_ b hb hbad
    unfold parseOk
    rw [if_neg (by simp [hg])]

/-- C10 witness data: a README plus a broken Python file. -/
def c10Files : List TFile :=
  [⟨⟨["README.md"], true⟩, none⟩,
   ⟨⟨["bad.py"], true⟩, none⟩]

theorem claim_C10_witness :
    (entryPath (⟨["README.md"], true⟩ : WalkEntry), emptyEntry)
        ∈ (parseCodebase c10Files).parsedFiles
    ∧ (parseCodebase c10Files).successfulParses = 1
    ∧ (parseCodebase c10Files).coveragePercentage
        < (parseCodebase (c10Files ++ [⟨⟨["notes.md"], true⟩, none⟩])).coveragePercentage := by
  have h := claim_C10_thm c10Files ⟨⟨["README.md"], true⟩, none⟩
    (by decide) (by decide) (by decide)
  refine ⟨h.1, ?_, ?_⟩
  · rw [h.2.2.2.1]
    decide
  · exact h.2.2.2.2.2 c10Files ⟨⟨["notes.md"], true⟩, none⟩ (by decide)
      ⟨⟨["bad.py"], true⟩, none⟩ (by decide) (by decide)

/-! ## Relationship Mapper (`src/llm_integration/relationship_mapper.py`)

The mapper's `import_graph` and `function_calls` are Python sets that are
later iterated without sorting.  Set contents are modelled by the
insertion-ordered list of elements; the iteration order a given process
observes is modelled by a reordering oracle `o` that permutes each list. -/

/-- One function symbol of a parsed file, with its enclosing class as
extracted by `PythonSymbolVisitor` (`SymbolInfo.parent`). -/
structure FSym where
  fname : String
  parent : Option String
deriving DecidableEq, Repr

/-- One record of `parsed_files`, as consumed by the mapper and builder. -/
structure PFile where
  category : String
  imports : List String
  syms : List FSym
  classes : List String
deriving DecidableEq, Repr

/-- The flat `functions` name list of a parsed file
(`[f.name for f in self.python_parser.get_functions()]`). -/
def PFile.functions (fd : PFile) : List String := fd.syms.map (fun s => s.fname)

/-- The parsed-file table `parsed_files`, in dict insertion order. -/
def ParsedTable : Type := List (String × PFile)

/-- Python-dict lookup: the value of the last assignment wins. -/
def tableGet (ps : List (String × PFile)) (fp : String) : Option PFile :=
  (ps.reverse.find? (fun p => p.1 = fp)).map (fun p => p.2)

/-- `RelationshipMapper._find_import_source`: first file whose stem
prefixes the import or which declares a class of that name. -/
def findImportSource (ps : List (String × PFile)) (imp : String) : Option String :=
  (ps.find? (fun p =>
    List.isPrefixOf (pathStem p.1).data imp.data || imp ∈ p.2.classes)).map
    (fun p => p.1)

/-- `RelationshipMapper._build_import_graph`, one file's entry: the
insertion-ordered contents of `import_graph[fp]`. -/
def importGraphList (ps : List (String × PFile)) (fp : String) : List String :=
  match tableGet ps fp with
  | none => []
  | some fd =>
    dedupFirst (fd.imports.filterMap (fun imp =>
      match findImportSource ps imp with
      | some src => if src = fp then none else some src
      | none => none))

/-- `RelationshipMapper._build_function_call_graph`, one file's entry:
files declaring a function with the same name as one of ours. -/
def functionCallsList (ps : List (String × PFile)) (fp : String) : List String :=
  match tableGet ps fp with
  | none => []
  | some fd =>
    dedupFirst (fd.functions.flatMap (fun func =>
      ps.filterMap (fun q =>
        if q.1 ≠ fp ∧ func ∈ q.2.functions then some q.1 else none)))

/-- `RelationshipMapper._build_class_inheritance_graph`, one file's entry
(a plain list, not a set: duplicates are kept). -/
def classInheritanceList (ps : List (String × PFile)) (fp : String) : List String :=
  match tableGet ps fp with
  | none => []
  | some fd =>
    fd.classes.flatMap (fun cls =>
      ps.flatMap (fun q =>
        if q.1 = fp then []
        else (q.2.classes.filter (fun oc =>
          List.isSuffixOf (lowerStr oc).data (lowerStr cls).data)).map
          (fun _ => q.1)))

/-- One relationship record emitted by `_generate_relationship_edges`. -/
structure RelRec where
  rtype : String
  target : String
  strength : String
  description : String
deriving DecidableEq, Repr

/-- The per-file relationship list: imports, then calls, then inheritance,
with the two set-backed segments iterated through the order oracle `o`. -/
def relsForFile (o : List String → List String) (ps : List (String × PFile))
    (fp : String) : List RelRec :=
  ((o (importGraphList ps fp)).map (fun t =>
      ⟨"imports", t, "strong", "Imports from " ++ pathName t⟩))
  ++ ((o (functionCallsList ps fp)).map (fun t =>
      ⟨"calls", t, "medium", "Calls functions in " ++ pathName t⟩))
  ++ ((classInheritanceList ps fp).map (fun t =>
      ⟨"inherits", t, "strong", "Inherits from " ++ pathName t⟩))

/-- `RelationshipMapper.map_relationships`. -/
def mapRelationships (o : List String → List String)
    (ps : List (String × PFile)) : List (String × List RelRec) :=
  ps.foldl (fun acc p => dictInsert acc p.1 (relsForFile o ps p.1)) []

/-- The claim of C4 as stated: the output, including the order of each
per-file list, is independent of set iteration order. -/
def claimC4 : Prop :=
  ∀ (ps : List (String × PFile)) (o1 o2 : List String → List String),
    (∀ l, (o1 l).Perm l) → (∀ l, (o2 l).Perm l) →
    mapRelationships o1 ps = mapRelationships o2 ps

/-- C4 counterexample table: `a.py` imports both `b` and `c`. -/
def c4Table : List (String × PFile) :=
  [("a.py", ⟨"backend", ["b", "c"], [], []⟩),
   ("b.py", ⟨"backend", [], [], []⟩),
   ("c.py", ⟨"backend", [], [], []⟩)]

/-- C4 counterexample: with the identity iteration order and the reversed
iteration order (both valid enumerations of the same sets), the two runs
return the import relationships of `a.py` in different orders. -/
theorem claim_C4_cex : ¬ claimC4 := by
  intro h
  have h2 := h c4Table id List.reverse (fun l => List.Perm.refl l)
    (fun l => List.reverse_perm l)
  exact absurd h2 (by decide)

theorem dictInsert_fresh {β : Type} (m : List (String × β)) (k : String)
    (v : β) (h : k ∉ m.map Prod.fst) : dictInsert m k v = m ++ [(k, v)] := by
  unfold dictInsert
  rw [if_neg]
  intro hany
  rcases List.any_eq_true.1 hany with ⟨p, hp, hpk⟩
  exact h (List.mem_map.2 ⟨p, hp, of_decide_eq_true hpk⟩)

theorem foldl_dictInsert_fresh {β : Type} (f : String → β)
    (l : List (String × PFile)) (acc : List (String × β))
    (hnd : (l.map Prod.fst).Nodup)
    (hdisj : ∀ k ∈ l.map Prod.fst, k ∉ acc.map Prod.fst) :
    l.foldl (fun acc p => dictInsert acc p.1 (f p.1)) acc
      = acc ++ l.map (fun p => (p.1, f p.1)) := by
  induction l generalizing acc with
  | nil => simp
  | cons p t ih =>
    rw [List.foldl_cons,
      dictInsert_fresh _ _ _ (hdisj p.1 (by simp))]
    rw [List.map_cons] at hnd
    rw [ih (acc ++ [(p.1, f p.1)]) (List.Nodup.of_cons hnd) ?_]
    · simp
    · intro k hk
      simp only [List.map_append, List.mem_append]
      rintro (hk1 | hk2)
      · exact hdisj k (by simp [hk]) hk1
      · have : k = p.1 := by simpa using hk2
        subst this
        exact (List.nodup_cons.1 hnd).1 hk

theorem mapRelationships_eq_map (o : List String → List String)
    (ps : List (String × PFile)) (hnd : (ps.map Prod.fst).Nodup) :
    mapRelationships o ps = ps.map (fun p => (p.1, relsForFile o ps p.1)) := by
  unfold mapRelationships
  rw [foldl_dictInsert_fresh _ ps [] hnd (by simp)]
  simp

theorem forall2_map_pair {α β : Type} (f g : α → β) (R : β → β → Prop)
    (l : List α) (h : ∀ a ∈ l, R (f a) (g a)) :
    List.Forall₂ R (l.map f) (l.map g) := by
  induction l with
  | nil => simp
  | cons a t ih =>
    simp only [List.map_cons]
    exact List.Forall₂.cons (h a (by simp)) (ih fun b hb => h b (by simp [hb]))

/-- C4, corrected: two runs under any two valid set iteration orders agree
on the keys and, for every file, on the multiset of relationship records;
only the order inside the import and call segments may differ. -/
theorem claim_C4_thm (ps : List (String × PFile))
    (o1 o2 : List String → List String)
    (h1 : ∀ l, (o1 l).Perm l) (h2 : ∀ l, (o2 l).Perm l)
    (hnd : (ps.map Prod.fst).Nodup) :
    List.Forall₂ (fun a b => a.1 = b.1 ∧ a.2.Perm b.2)
      (mapRelationships o1 ps) (mapRelationships o2 ps) := by
  rw [mapRelationships_eq_map o1 ps hnd, mapRelationships_eq_map o2 ps hnd]
  refine forall2_map_pair _ _ _ ps (fun p _ => ⟨rfl, ?_⟩)
  unfold relsForFile
  refine List.Perm.append (List.Perm.append ?_ ?_) (List.Perm.refl _)
  · exact ((h1 _).map _).trans (((h2 _).map _).symm)
  · exact ((h1 _).map _).trans (((h2 _).map _).symm)

theorem claim_C4_witness :
    List.Forall₂ (fun a b => a.1 = b.1 ∧ a.2.Perm b.2)
      (mapRelationships id c4Table) (mapRelationships id c4Table) :=
  claim_C4_thm c4Table id id (fun l => List.Perm.refl l)
    (fun l => List.Perm.refl l) (by decide)

/-! ## Enhanced Graph Builder (`src/graph_builder/enhanced_graph_builder.py`)

Node metadata (colors, purposes, complexity) is omitted; ids, names,
levels, member files and symbol lists — everything the claims inspect —
are embedded exactly.  The `networkx` community-detection import in
`_create_system_nodes_and_edges` is dead code: the clusters are always
the directory groups `pkg_groups`, which is what is embedded. -/

/-- Path segments excluding a file from core analysis (tests/docs/etc.). -/
def NON_CORE_SEGMENTS : List String :=
  ["/tests/", "/test/", "/docs/", "/examples/", "/example/", "/static/", "/assets/"]

/-- Whether a path is filtered out as a non-core source. -/
def isNonCorePath (fp : String) : Bool :=
  NON_CORE_SEGMENTS.any (fun seg => strContainsSub (lowerStr (slashNorm fp)) seg)

/-- Whether a file passes the core-file filter of
`_group_files_by_semantics` (non-core paths and non-backend categories
are skipped). -/
def isCoreBackend (fp : String) (fd : PFile) : Bool :=
  !(isNonCorePath fp) && fd.category = "backend"

/-- Fixed bucket keys of `_group_files_by_semantics`, in dict order. -/
def BUSINESS_GROUP_KEYS : List String :=
  ["Core Runtime", "Models", "Components", "Controls", "Actions", "Data",
   "Integrations", "Other"]

/-- The path-based bucket `_group_files_by_semantics` assigns a core
file to. -/
def businessBucket (fp : String) : String :=
  let p := slashNorm fp
  match splitAfter p "/src/" with
  | some rel =>
    if List.isPrefixOf "vizro/_vizro".data rel.data then "Core Runtime"
    else if strContainsSub rel "/models/_components/" = true then "Components"
    else if strContainsSub rel "/models/_controls/" = true then "Controls"
    else if strContainsSub rel "/models/" = true then "Models"
    else if strContainsSub rel "/actions/" = true then "Actions"
    else if strContainsSub rel "/managers/" = true then "Data"
    else if strContainsSub rel "/integrations/" = true then "Integrations"
    else "Other"
  | none => "Other"

/-- `_group_files_by_semantics`: nonempty buckets in fixed key order, each
holding its member files in table order. -/
def groupFilesBySemantics (ps : List (String × PFile)) :
    List (String × List String) :=
  (BUSINESS_GROUP_KEYS.map (fun k =>
    (k, (ps.filter (fun p => isCoreBackend p.1 p.2 && businessBucket p.1 = k)).map
      (fun p => p.1)))).filter (fun g => !g.2.isEmpty)

/-- A BUSINESS node (id, display name and member files). -/
structure BNode where
  id : String
  name : String
  files : List String
deriving DecidableEq, Repr

/-- `group_name.lower().replace(' ', '_')`. -/
def sanitizeGroupName (g : String) : String :=
  ⟨(lowerStr g).data.map (fun c => if c = ' ' then '_' else c)⟩

/-- `_create_enhanced_hld_nodes`. -/
def businessNodes (ps : List (String × PFile)) : List BNode :=
  (groupFilesBySemantics ps).map (fun g =>
    ⟨"module_" ++ sanitizeGroupName g.1, g.1, g.2⟩)

/-- The deny-list of `_should_skip_low_level_component`. -/
def LOW_LEVEL_PATTERNS : List String :=
  ["__init__", "__str__", "__repr__", "__eq__", "__hash__",
   "__getitem__", "__setitem__", "__delitem__", "__len__",
   "__contains__", "__iter__", "__next__", "__enter__", "__exit__",
   "__call__", "__getattr__", "__setattr__", "__delattr__",
   "__getattribute__", "__new__", "__del__", "__slots__",
   "get_", "set_", "is_", "has_", "add_", "remove_", "clear_",
   "update_", "reset_", "init_", "cleanup_", "validate_"]

/-- `_should_skip_low_level_component`: deny-list patterns are matched as
substrings of the lower-cased name. -/
def shouldSkipLowLevel (name : String) : Bool :=
  LOW_LEVEL_PATTERNS.any (fun pat => strContainsSub (lowerStr name) pat)

/-- `_get_class_functions`: the source returns the file's entire
`functions` list, for any class. -/
def getClassFunctions (fd : PFile) : List String := fd.functions

/-- `_is_function_in_class`: heuristic substring test against the file's
class names. -/
def isFunctionInClass (fname : String) (fd : PFile) : Bool :=
  fd.classes.any (fun cls => strContainsSub (lowerStr fname) (lowerStr cls))

/-- Keyword table of `_group_functions_by_purpose`, in if/elif order. -/
def PURPOSE_GROUPS : List (String × List String) :=
  [("Data Processing", ["process", "transform", "convert", "parse", "format"]),
   ("Validation", ["validate", "check", "verify", "test", "assert"]),
   ("Utility", ["util", "helper", "format", "clean", "normalize"]),
   ("Business Logic", ["calculate", "compute", "analyze", "generate", "create"]),
   ("Configuration", ["config", "setup", "init", "load", "save"])]

/-- First purpose bucket whose keyword list matches, else `Other`. -/
def purposeBucket (fname : String) : String :=
  match PURPOSE_GROUPS.find? (fun g =>
    g.2.any (fun w => strContainsSub (lowerStr fname) w)) with
  | some g => g.1
  | none => "Other"

/-- Bucket keys of `_group_functions_by_purpose`, in dict order. -/
def PURPOSE_KEYS : List String :=
  ["Data Processing", "Validation", "Utility", "Business Logic",
   "Configuration", "Other"]

/-- `_group_functions_by_purpose`: nonempty purpose buckets in key order. -/
def groupFunctionsByPurpose (fns : List String) : List (String × List String) :=
  (PURPOSE_KEYS.map (fun k =>
    (k, fns.filter (fun f => purposeBucket f = k)))).filter (fun g => !g.2.isEmpty)

/-- An IMPLEMENTATION node. -/
structure ENode where
  id : String
  name : String
  ntype : String
  files : List String
  classes : List String
  functions : List String
deriving DecidableEq, Repr

/-- The class node `_create_enhanced_lld_nodes` builds for a class of a
file (when it builds one): its functions are ALL of the file's
non-skipped functions, by way of `_get_class_functions`. -/
def classNodeOf (fp : String) (fd : PFile) (c : String) : ENode :=
  ⟨"class_" ++ c ++ "_" ++ pathStem fp, c ++ " Class", "Class", [fp], [c],
   (getClassFunctions fd).filter (fun f => !(shouldSkipLowLevel f))⟩

/-- The standalone functions of a file: non-trivial and not attributed to
a class by the heuristic. -/
def standaloneFns (fd : PFile) : List String :=
  fd.functions.filter (fun f => !(shouldSkipLowLevel f) && !(isFunctionInClass f fd))

/-- Candidate IMPLEMENTATION nodes of one parsed file, in creation order:
class nodes first, then function-group nodes. -/
def implCandidatesOfFile (fp : String) (fd : PFile) : List ENode :=
  ((fd.classes.filter (fun c => !(shouldSkipLowLevel c))).filterMap (fun c =>
    if ((getClassFunctions fd).filter (fun f => !(shouldSkipLowLevel f))).isEmpty
    then none
    else some (classNodeOf fp fd c)))
  ++ (if (standaloneFns fd).isEmpty then []
      else (groupFunctionsByPurpose (standaloneFns fd)).map (fun g =>
        ⟨"function_group_" ++ g.1 ++ "_" ++ pathStem fp, g.1 ++ " Functions",
         "Function_Group", [fp], [], g.2⟩))

/-- All IMPLEMENTATION node candidates, in table order. -/
def implCandidates (ps : List (String × PFile)) : List ENode :=
  ps.flatMap (fun p => implCandidatesOfFile p.1 p.2)

/-- Dict insertion of a node keyed by its id (`lld_nodes[node_id] = ...`). -/
def nodeInsert (m : List ENode) (n : ENode) : List ENode :=
  if m.any (fun e => e.id = n.id) then
    m.map (fun e => if e.id = n.id then n else e)
  else m ++ [n]

/-- `_create_enhanced_lld_nodes`: the `lld_nodes` dict values. -/
def implNodes (ps : List (String × PFile)) : List ENode :=
  (implCandidates ps).foldl nodeInsert []

/-- The core file paths used for clustering (`file_paths` in
`_create_system_nodes_and_edges`; only the path filter applies here). -/
def clusterFilePaths (ps : List (String × PFile)) : List String :=
  (ps.filter (fun p => !(isNonCorePath p.1))).map (fun p => p.1)

/-- `matches_import`: the import string with spaces and colons removed is
split on dots and matched against the target's stem. -/
def matchesImport (targetPath imp : String) : Bool :=
  let stem := pathStem targetPath
  let cleaned : String := ⟨imp.data.filter (fun c => !(c = ' ') && !(c = ':'))⟩
  let parts := splitStr '.' cleaned
  stem ∈ parts || parts.any (fun p => strContainsSub p stem)

/-- `file_imports[fp]`: other core files matched by some import of the
file, in `file_paths` order (the Python set is built in that order). -/
def fileImportTargets (ps : List (String × PFile)) (fp : String) (fd : PFile) :
    List String :=
  dedupFirst ((clusterFilePaths ps).filter (fun other =>
    !(other = fp) && fd.imports.any (fun imp => matchesImport other imp)))

/-- The grouping key of `pkg_groups`: the second path segment after
`/src/` when present, else the parent directory name. -/
def clusterKey (fp : String) : String :=
  let lower := slashNorm fp
  match splitAfter lower "/src/" with
  | some rel =>
    let parts := splitStr '/' rel
    if 2 ≤ parts.length then parts.getD 1 "" else parts.getD 0 ""
  | none => parentDirName fp

/-- `pkg_groups`, in first-appearance key order. -/
def pkgGroups (ps : List (String × PFile)) : List (String × List String) :=
  (clusterFilePaths ps).foldl (fun acc fp => dictAppend acc (clusterKey fp) fp) []

/-- `clusters = list(pkg_groups.values())`. -/
def buildClusters (ps : List (String × PFile)) : List (List String) :=
  (pkgGroups ps).map (fun g => g.2)

/-- A SYSTEM node. -/
structure SNode where
  id : String
  name : String
  files : List String
deriving DecidableEq, Repr

/-- First element of maximal multiplicity, modelling
`max(set(dir_names), key=dir_names.count)` (the source's tie-break runs
over set iteration order; ties are resolved here to the first-seen
maximal element, which agrees with the source whenever the maximum is
unique). -/
def maxCountFirst (l : List String) (dflt : String) : String :=
  match dedupFirst l with
  | [] => dflt
  | x :: xs => xs.foldl (fun best cand =>
      if l.count best < l.count cand then cand else best) x

/-- Python `str.title()` restricted to ASCII-style words. -/
def titleAux : Bool → List Char → List Char
  | _, [] => []
  | prevAlpha, c :: t =>
    (if c.isAlpha then (if prevAlpha then c.toLower else c.toUpper) else c)
      :: titleAux c.isAlpha t

/-- String version of `titleAux`. -/
def titleStr (s : String) : String := ⟨titleAux false s.data⟩

/-- The SYSTEM node built for the cluster at index `idx`. -/
def systemNodeOfCluster (idx : Nat) (files : List String) : SNode :=
  let dirNames := files.map parentDirName
  let commonDir := maxCountFirst dirNames ("cluster_" ++ toString (idx + 1))
  let pretty := titleStr ⟨commonDir.data.map (fun c => if c = '_' then ' ' else c)⟩
  ⟨"system_" ++ lowerStr commonDir ++ "_" ++ toString (idx + 1), pretty, files⟩

/-- The SYSTEM nodes of `_create_system_nodes_and_edges`. -/
def systemNodes (ps : List (String × PFile)) : List SNode :=
  (buildClusters ps).enum.map (fun p => systemNodeOfCluster p.1 p.2)

/-- One step of the best-overlap fold in `find_business_parent`; overlap
counts distinct common files (a Python set intersection). -/
def fbpStep (files : List String) (best : Option BNode × Nat) (bn : BNode) :
    Option BNode × Nat :=
  if best.2 < ((dedupFirst files).filter (fun f => f ∈ bn.files)).length
  then (some bn, ((dedupFirst files).filter (fun f => f ∈ bn.files)).length)
  else best

/-- `find_business_parent`: the first business node of strictly maximal
(and positive) file overlap. -/
def findBusinessParent (bns : List BNode) (files : List String) : Option BNode :=
  (bns.foldl (fbpStep files) (none, 0)).1

/-- `impl_by_file` lookup: the implementation nodes owning a file, in
node-creation order. -/
def implByFile (ins : List ENode) (f : String) : List ENode :=
  ins.filter (fun n => f ∈ n.files)

/-- An edge of the enhanced graph. -/
structure BEdge where
  from_node : String
  to_node : String
  etype : String
deriving DecidableEq, Repr

/-- `file_to_cluster` lookup (later clusters overwrite earlier ones). -/
def fileToCluster (ps : List (String × PFile)) (f : String) : Option String :=
  ((systemNodes ps).reverse.find? (fun sn => f ∈ sn.files)).map (fun sn => sn.id)

/-- The deduplicated SYSTEM-level `depends_on` pairs, in discovery order
(`seen_pairs` is consulted before each append). -/
def systemDependsPairs (ps : List (String × PFile)) : List (String × String) :=
  ps.foldl (fun acc p =>
    (fileImportTargets ps p.1 p.2).foldl (fun acc tgt =>
      match fileToCluster ps p.1, fileToCluster ps tgt with
      | some sc, some tc =>
        if !(sc = tc) && !((sc, tc) ∈ acc) then acc ++ [(sc, tc)] else acc
      | _, _ => acc) acc) []

/-- `depends_on` edges between SYSTEM clusters. -/
def systemDependsEdges (ps : List (String × PFile)) : List BEdge :=
  (systemDependsPairs ps).map (fun pr => ⟨pr.1, pr.2, "depends_on"⟩)

/-- Containment edges emitted while creating one cluster's SYSTEM node:
the optional BUSINESS parent edge followed by the implementation
attachment edges. -/
def clusterContainsEdges (bns : List BNode) (ins : List ENode) (idx : Nat)
    (files : List String) : List BEdge :=
  (match findBusinessParent bns files with
   | some bn => [⟨bn.id, (systemNodeOfCluster idx files).id, "contains"⟩]
   | none => [])
  ++ (files.flatMap (fun f =>
      (implByFile ins f).map (fun n =>
        (⟨(systemNodeOfCluster idx files).id, n.id, "contains"⟩ : BEdge))))

/-- The edge list built inside `_create_system_nodes_and_edges`: for each
cluster the containment edges, then the collapsed `depends_on` edges. -/
def systemEdges (ps : List (String × PFile)) (bns : List BNode)
    (ins : List ENode) : List BEdge :=
  ((buildClusters ps).enum.flatMap (fun p => clusterContainsEdges bns ins p.1 p.2))
  ++ systemDependsEdges ps

/-- `_find_parent_hld_node`: first business node containing the file. -/
def findParentHld (bns : List BNode) (f : String) : Option BNode :=
  bns.find? (fun bn => f ∈ bn.files)

/-- The BUSINESS→IMPLEMENTATION containment edges of
`_create_enhanced_graph_edges` (wired for every implementation node and
file, with no pruning). -/
def bContainEdges (bns : List BNode) (ins : List ENode) : List BEdge :=
  ins.flatMap (fun n =>
    n.files.filterMap (fun f =>
      (findParentHld bns f).map (fun bn => (⟨bn.id, n.id, "contains"⟩ : BEdge))))

/-- `_create_relationship_edges`. -/
def relTypeEdges (relResults : List (String × List RelRec)) (ins : List ENode) :
    List BEdge :=
  relResults.flatMap (fun pr =>
    pr.2.flatMap (fun rel =>
      (ins.filter (fun n => pr.1 ∈ n.files)).flatMap (fun src =>
        (ins.filter (fun n => rel.target ∈ n.files)).filterMap (fun tgt =>
          if src.id = tgt.id then none
          else some ⟨src.id, tgt.id, rel.rtype⟩))))

/-- The full edge list of `_create_enhanced_graph_structure`:
`_create_enhanced_graph_edges` output followed by the system edges. -/
def builtEdges (o : List String → List String) (ps : List (String × PFile)) :
    List BEdge :=
  bContainEdges (businessNodes ps) (implNodes ps)
  ++ relTypeEdges (mapRelationships o ps) (implNodes ps)
  ++ systemEdges ps (businessNodes ps) (implNodes ps)

/-! ## Claims about the enhanced builder (C2, C3, C7) -/

/-- First character of a string, used to separate the id families of the
three node levels. -/
def firstChar (s : String) : Option Char := s.data.head?

theorem firstChar_append (pre s : String) (c : Char)
    (h : pre.data.head? = some c) : firstChar (pre ++ s) = some c := by
  cases pre with
  | mk l =>
    cases s with
    | mk m =>
      show (l ++ m).head? = some c
      cases l with
      | nil => exact absurd h (by simp)
      | cons a t => simpa using h

theorem businessNodes_firstChar (ps : List (String × PFile)) (bn : BNode)
    (h : bn ∈ businessNodes ps) : firstChar bn.id = some 'm' := by
  unfold businessNodes at h
  rcases List.mem_map.1 h with ⟨g, _, rfl⟩
  exact firstChar_append "module_" _ 'm' rfl

theorem systemNodes_firstChar (ps : List (String × PFile)) (sn : SNode)
    (h : sn ∈ systemNodes ps) : firstChar sn.id = some 's' := by
  unfold systemNodes at h
  rcases List.mem_map.1 h with ⟨p, _, rfl⟩
  exact firstChar_append "system_" _ 's' rfl

theorem foldl_nodeInsert_sub (l : List ENode) (acc : List ENode) (x : ENode)
    (h : x ∈ l.foldl nodeInsert acc) : x ∈ acc ∨ x ∈ l := by
  induction l generalizing acc with
  | nil => exact Or.inl h
  | cons n t ih =>
    rw [List.foldl_cons] at h
    rcases ih _ h with h1 | h2
    · unfold nodeInsert at h1
      split at h1
      · rcases List.mem_map.1 h1 with ⟨e, he, rfl⟩
        by_cases hid : e.id = n.id
        · simp only [hid, if_true]
          exact Or.inr (by simp)
        · simp only [hid, if_false]
          exact Or.inl he
      · rcases List.mem_append.1 h1 with h3 | h3
        · exact Or.inl h3
        · exact Or.inr (by simpa using Or.inl (List.mem_singleton.1 h3))
    · exact Or.inr (List.mem_cons_of_mem n h2)

theorem implNodes_sub_candidates (ps : List (String × PFile)) (n : ENode)
    (h : n ∈ implNodes ps) : n ∈ implCandidates ps := by
  rcases foldl_nodeInsert_sub _ _ _ h with h1 | h1
  · exact absurd h1 (List.not_mem_nil n)
  · exact h1

theorem implCandidates_firstChar (ps : List (String × PFile)) (n : ENode)
    (h : n ∈ implCandidates ps) :
    firstChar n.id = some 'c' ∨ firstChar n.id = some 'f' := by
  rcases List.mem_flatMap.1 h with ⟨p, _, hn⟩
  unfold implCandidatesOfFile at hn
  rcases List.mem_append.1 hn with h1 | h1
  · rcases List.mem_filterMap.1 h1 with ⟨c, _, hc⟩
    split at hc
    · exact absurd hc (by simp)
    · left
      have : classNodeOf p.1 p.2 c = n := by injection hc
      rw [← this]
      exact firstChar_append "class_" _ 'c' rfl
  · split at h1
    · exact absurd h1 (List.not_mem_nil n)
    · rcases List.mem_map.1 h1 with ⟨g, _, rfl⟩
      right
      exact firstChar_append "function_group_" _ 'f' rfl

theorem implNodes_firstChar (ps : List (String × PFile)) (n : ENode)
    (h : n ∈ implNodes ps) :
    firstChar n.id = some 'c' ∨ firstChar n.id = some 'f' :=
  implCandidates_firstChar ps n (implNodes_sub_candidates ps n h)

theorem fbpFold_mem (files : List String) (l : List BNode)
    (init : Option BNode × Nat) (bn : BNode)
    (h : (l.foldl (fbpStep files) init).1 = some bn) :
    init.1 = some bn ∨ bn ∈ l := by
  induction l generalizing init with
  | nil => exact Or.inl h
  | cons b t ih =>
    rw [List.foldl_cons] at h
    rcases ih _ h with h1 | h2
    · unfold fbpStep at h1
      split at h1
      · right
        simp only [Option.some.injEq] at h1
        simp [h1]
      · rcases h1 with h1
        exact Or.inl h1
    · exact Or.inr (List.mem_cons_of_mem b h2)

theorem findBusinessParent_mem (bns : List BNode) (files : List String)
    (bn : BNode) (h : findBusinessParent bns files = some bn) : bn ∈ bns := by
  rcases fbpFold_mem files bns (none, 0) bn h with h1 | h1
  · exact absurd h1 (by simp)
  · exact h1

theorem foldl_dictInsert_values {β : Type} (f : String → β)
    (l : List (String × PFile)) (acc : List (String × β))
    (hacc : ∀ pr ∈ acc, pr.2 = f pr.1) :
    ∀ pr ∈ l.foldl (fun acc p => dictInsert acc p.1 (f p.1)) acc,
      pr.2 = f pr.1 := by
  induction l generalizing acc with
  | nil => exact hacc
  | cons p t ih =>
    rw [List.foldl_cons]
    refine ih _ ?_
    intro pr hpr
    unfold dictInsert at hpr
    split at hpr
    · rcases List.mem_map.1 hpr with ⟨q, hq, rfl⟩
      by_cases hqk : q.1 = p.1
      · simp [hqk]
      · simp [hqk, hacc q hq]
    · rcases List.mem_append.1 hpr with h1 | h1
      · exact hacc pr h1
      · rcases List.mem_singleton.1 h1 with rfl
        rfl

theorem mapRelationships_values (o : List String → List String)
    (ps : List (String × PFile)) (pr : String × List RelRec)
    (h : pr ∈ mapRelationships o ps) : pr.2 = relsForFile o ps pr.1 :=
  foldl_dictInsert_values _ ps [] (by simp) pr h

theorem relsForFile_rtype (o : List String → List String)
    (ps : List (String × PFile)) (fp : String) (r : RelRec)
    (h : r ∈ relsForFile o ps fp) :
    r.rtype = "imports" ∨ r.rtype = "calls" ∨ r.rtype = "inherits" := by
  unfold relsForFile at h
  rcases List.mem_append.1 h with h1 | h1
  · rcases List.mem_append.1 h1 with h2 | h2
    · rcases List.mem_map.1 h2 with ⟨t, _, rfl⟩
      exact Or.inl rfl
    · rcases List.mem_map.1 h2 with ⟨t, _, rfl⟩
      exact Or.inr (Or.inl rfl)
  · rcases List.mem_map.1 h1 with ⟨t, _, rfl⟩
    exact Or.inr (Or.inr rfl)

theorem builtEdges_contains_classified (o : List String → List String)
    (ps : List (String × PFile)) (e : BEdge) (he : e ∈ builtEdges o ps)
    (hc : e.etype = "contains") :
    ((∃ bn ∈ businessNodes ps, e.from_node = bn.id) ∧
      ((∃ sn ∈ systemNodes ps, e.to_node = sn.id)
        ∨ (∃ n ∈ implNodes ps, e.to_node = n.id)))
    ∨ ((∃ sn ∈ systemNodes ps, e.from_node = sn.id)
        ∧ (∃ n ∈ implNodes ps, e.to_node = n.id)) := by
  unfold builtEdges at he
  rcases List.mem_append.1 he with he | he
  · rcases List.mem_append.1 he with he | he
    · unfold bContainEdges at he
      rcases List.mem_flatMap.1 he with ⟨n, hn, he2⟩
      rcases List.mem_filterMap.1 he2 with ⟨f, _, he3⟩
      rcases Option.map_eq_some'.1 he3 with ⟨bn, hfind, rfl⟩
      refine Or.inl ⟨⟨bn, List.mem_of_find?_eq_some hfind, rfl⟩,
        Or.inr ⟨n, hn, rfl⟩⟩
    · exfalso
      unfold relTypeEdges at he
      rcases List.mem_flatMap.1 he with ⟨pr, hpr, he2⟩
      rcases List.mem_flatMap.1 he2 with ⟨rel, hrel, he3⟩
      rcases List.mem_flatMap.1 he3 with ⟨src, _, he4⟩
      rcases List.mem_filterMap.1 he4 with ⟨tgt, _, he5⟩
      split at he5
      · exact absurd he5 (by simp)
      · have hv := mapRelationships_values o ps pr hpr
        rw [hv] at hrel
        have ht := relsForFile_rtype o ps pr.1 rel hrel
        have he6 : e = ⟨src.id, tgt.id, rel.rtype⟩ := by
          injection he5 with h6
          exact h6.symm
        have hc2 : rel.rtype = "contains" := by rw [he6] at hc; exact hc
        rcases ht with ht | ht | ht <;> rw [ht] at hc2 <;> exact absurd hc2 (by decide)
  · unfold systemEdges at he
    rcases List.mem_append.1 he with he | he
    · rcases List.mem_flatMap.1 he with ⟨p, hp, he2⟩
      unfold clusterContainsEdges at he2
      rcases List.mem_append.1 he2 with he3 | he3
      · rcases hfind : findBusinessParent (businessNodes ps) p.2 with _ | bn
        · rw [hfind] at he3
          exact absurd he3 (List.not_mem_nil e)
        · rw [hfind] at he3
          rcases List.mem_singleton.1 he3 with rfl
          refine Or.inl ⟨⟨bn, findBusinessParent_mem _ _ _ hfind, rfl⟩,
            Or.inl ⟨systemNodeOfCluster p.1 p.2, ?_, rfl⟩⟩
          exact List.mem_map.2 ⟨p, hp, rfl⟩
      · rcases List.mem_flatMap.1 he3 with ⟨f, _, he4⟩
        rcases List.mem_map.1 he4 with ⟨n, hn, rfl⟩
        refine Or.inr ⟨⟨systemNodeOfCluster p.1 p.2, ?_, rfl⟩,
          ⟨n, ?_, rfl⟩⟩
        · exact List.mem_map.2 ⟨p, hp, rfl⟩
        · exact List.mem_of_mem_filter hn
    · exfalso
      unfold systemDependsEdges at he
      rcases List.mem_map.1 he with ⟨pr, _, rfl⟩
      have hc2 : ("depends_on" : String) = "contains" := hc
      exact absurd hc2 (by decide)

/-- The claim of C2 as stated: in every built graph, each node is the
target of at most one CONTAINS edge. -/
def claimC2 : Prop :=
  ∀ (o : List String → List String) (ps : List (String × PFile)) (nid : String),
    ((builtEdges o ps).filter
      (fun e => e.etype = "contains" && e.to_node = nid)).length ≤ 1

/-- Counterexample table shared by C2 and C3: a single backend file under
`src/` declaring one class with one method. -/
def c2Table : List (String × PFile) :=
  [("proj/src/pkg/mod/a.py",
    ⟨"backend", [], [⟨"compute", some "Calc"⟩], ["Calc"]⟩)]

/-- C2 counterexample: the implementation node `class_Calc_a` receives a
CONTAINS edge both from its SYSTEM cluster and directly from its BUSINESS
group, i.e. two parents. -/
theorem claim_C2_cex : ¬ claimC2 := by
  intro h
  exact absurd (h id c2Table "class_Calc_a") (by decide)

/-- C2, corrected: CONTAINS edges run only BUSINESS→SYSTEM,
BUSINESS→IMPLEMENTATION or SYSTEM→IMPLEMENTATION, so every CONTAINS chain
has length at most two and ends below a BUSINESS node; but a node may be
the target of two CONTAINS edges (one from its SYSTEM cluster, one
directly from a BUSINESS node), so the CONTAINS edges form a DAG with
shared children, not a forest. -/
theorem claim_C2_thm (o : List String → List String)
    (ps : List (String × PFile)) :
    (∀ e ∈ builtEdges o ps, e.etype = "contains" →
      ((∃ bn ∈ businessNodes ps, e.from_node = bn.id) ∧
        ((∃ sn ∈ systemNodes ps, e.to_node = sn.id)
          ∨ (∃ n ∈ implNodes ps, e.to_node = n.id)))
      ∨ ((∃ sn ∈ systemNodes ps, e.from_node = sn.id)
          ∧ (∃ n ∈ implNodes ps, e.to_node = n.id)))
    ∧ (∀ e1 ∈ builtEdges o ps, ∀ e2 ∈ builtEdges o ps, ∀ e3 ∈ builtEdges o ps,
        e1.etype = "contains" → e2.etype = "contains" → e3.etype = "contains" →
        e1.to_node = e2.from_node → e2.to_node = e3.from_node → False) := by
  refine ⟨fun e he hc => builtEdges_contains_classified o ps e he hc, ?_⟩
  intro e1 he1 e2 he2 e3 he3 hc1 hc2 hc3 h12 h23
  have hcl1 := builtEdges_contains_classified o ps e1 he1 hc1
  have hcl2 := builtEdges_contains_classified o ps e2 he2 hc2
  have hcl3 := builtEdges_contains_classified o ps e3 he3 hc3
  have hto1 : firstChar e1.to_node = some 's'
      ∨ firstChar e1.to_node = some 'c' ∨ firstChar e1.to_node = some 'f' := by
    rcases hcl1 with ⟨_, hs | hi⟩ | ⟨_, hi⟩
    · rcases hs with ⟨sn, hsn, hid⟩
      exact Or.inl (hid ▸ systemNodes_firstChar ps sn hsn)
    · rcases hi with ⟨n, hn, hid⟩
      exact Or.inr (hid ▸ implNodes_firstChar ps n hn)
    · rcases hi with ⟨n, hn, hid⟩
      exact Or.inr (hid ▸ implNodes_firstChar ps n hn)
  have hfrom2 : firstChar e2.from_node = some 'm'
      ∨ firstChar e2.from_node = some 's' := by
    rcases hcl2 with ⟨⟨bn, hbn, hid⟩, _⟩ | ⟨⟨sn, hsn, hid⟩, _⟩
    · exact Or.inl (hid ▸ businessNodes_firstChar ps bn hbn)
    · exact Or.inr (hid ▸ systemNodes_firstChar ps sn hsn)
  rw [h12] at hto1
  rcases hto1 with hto1 | hto1 | hto1
  · -- e2 starts at a SYSTEM node, so e2 ends at an IMPLEMENTATION node
    have h2impl : ∃ n ∈ implNodes ps, e2.to_node = n.id := by
      rcases hcl2 with ⟨⟨bn, hbn, hid⟩, _⟩ | ⟨_, hi⟩
      · have := hid ▸ businessNodes_firstChar ps bn hbn
        rw [this] at hto1
        exact absurd hto1 (by decide)
      · exact hi
    rcases h2impl with ⟨n, hn, hid⟩
    have hcf := hid ▸ implNodes_firstChar ps n hn
    rw [h23] at hcf
    have hfrom3 : firstChar e3.from_node = some 'm'
        ∨ firstChar e3.from_node = some 's' := by
      rcases hcl3 with ⟨⟨bn, hbn, hid3⟩, _⟩ | ⟨⟨sn, hsn, hid3⟩, _⟩
      · exact Or.inl (hid3 ▸ businessNodes_firstChar ps bn hbn)
      · exact Or.inr (hid3 ▸ systemNodes_firstChar ps sn hsn)
    rcases hcf with hcf | hcf <;> rcases hfrom3 with h3 | h3 <;>
      rw [hcf] at h3 <;> exact absurd h3 (by decide)
  · rcases hfrom2 with h2 | h2 <;> rw [hto1] at h2 <;> exact absurd h2 (by decide)
  · rcases hfrom2 with h2 | h2 <;> rw [hto1] at h2 <;> exact absurd h2 (by decide)

theorem claim_C2_witness :
    ((∃ bn ∈ businessNodes c2Table,
        (⟨"module_other", "class_Calc_a", "contains"⟩ : BEdge).from_node = bn.id) ∧
      ((∃ sn ∈ systemNodes c2Table,
          (⟨"module_other", "class_Calc_a", "contains"⟩ : BEdge).to_node = sn.id)
        ∨ (∃ n ∈ implNodes c2Table,
            (⟨"module_other", "class_Calc_a", "contains"⟩ : BEdge).to_node = n.id)))
    ∨ ((∃ sn ∈ systemNodes c2Table,
          (⟨"module_other", "class_Calc_a", "contains"⟩ : BEdge).from_node = sn.id)
        ∧ (∃ n ∈ implNodes c2Table,
            (⟨"module_other", "class_Calc_a", "contains"⟩ : BEdge).to_node = n.id)) :=
  (claim_C2_thm id c2Table).1 ⟨"module_other", "class_Calc_a", "contains"⟩
    (by decide) rfl

/-- The claim of C3 as stated: no direct BUSINESS→IMPLEMENTATION CONTAINS
edge coexists with a BUSINESS→SYSTEM→IMPLEMENTATION CONTAINS path between
the same endpoints. -/
def claimC3 : Prop :=
  ∀ (o : List String → List String) (ps : List (String × PFile)) (b s i : String),
    (⟨b, i, "contains"⟩ : BEdge) ∈ builtEdges o ps →
    (∃ bn ∈ businessNodes ps, b = bn.id) →
    (∃ n ∈ implNodes ps, i = n.id) →
    (⟨b, s, "contains"⟩ : BEdge) ∈ builtEdges o ps →
    (∃ sn ∈ systemNodes ps, s = sn.id) →
    (⟨s, i, "contains"⟩ : BEdge) ∈ builtEdges o ps →
    False

/-- C3 counterexample: on `c2Table`, the direct edge
`module_other → class_Calc_a` coexists with the path
`module_other → system_mod_1 → class_Calc_a`. -/
theorem claim_C3_cex : ¬ claimC3 := fun h =>
  h id c2Table "module_other" "system_mod_1" "class_Calc_a"
    (by decide) (by decide) (by decide) (by decide) (by decide) (by decide)

/-- C3, corrected: no pruning step exists.  The builder emits the direct
BUSINESS→IMPLEMENTATION CONTAINS edge for every implementation node whose
file belongs to a business group, regardless of any
BUSINESS→SYSTEM→IMPLEMENTATION path between the same endpoints. -/
theorem claim_C3_thm (o : List String → List String)
    (ps : List (String × PFile)) (n : ENode) (hn : n ∈ implNodes ps)
    (f : String) (hf : f ∈ n.files) (bn : BNode)
    (hb : findParentHld (businessNodes ps) f = some bn) :
    (⟨bn.id, n.id, "contains"⟩ : BEdge) ∈ builtEdges o ps := by
  unfold builtEdges
  refine List.mem_append.2 (Or.inl (List.mem_append.2 (Or.inl ?_)))
  unfold bContainEdges
  refine List.mem_flatMap.2 ⟨n, hn, ?_⟩
  refine List.mem_filterMap.2 ⟨f, hf, ?_⟩
  rw [hb]
  rfl

theorem claim_C3_witness :
    (⟨"module_other", "class_Calc_a", "contains"⟩ : BEdge)
      ∈ builtEdges id c2Table :=
  claim_C3_thm id c2Table
    ⟨"class_Calc_a", "Calc Class", "Class", ["proj/src/pkg/mod/a.py"],
     ["Calc"], ["compute"]⟩
    (by decide) "proj/src/pkg/mod/a.py" (by decide)
    ⟨"module_other", "Other", ["proj/src/pkg/mod/a.py"]⟩ (by decide)

/-- The functions the spec attributes to a class node: the class's own
methods, read from the extracted symbols' enclosing-class field. -/
def ownMethods (fd : PFile) (c : String) : List String :=
  (fd.syms.filter (fun s => s.parent = some c)).map (fun s => s.fname)

/-- The claim of C7 as stated: a class's IMPLEMENTATION node lists exactly
that class's own non-trivial methods. -/
def claimC7 : Prop :=
  ∀ (ps : List (String × PFile)) (fp : String) (fd : PFile) (c : String),
    (fp, fd) ∈ ps → c ∈ fd.classes → shouldSkipLowLevel c = false →
    ∀ n ∈ implNodes ps, n.id = "class_" ++ c ++ "_" ++ pathStem fp →
    n.functions = (ownMethods fd c).filter (fun f => !(shouldSkipLowLevel f))

/-- C7 counterexample table: `a.py` declares class `Calc` with method
`compute` and a separate top-level function `translate`. -/
def c7Table : List (String × PFile) :=
  [("a.py",
    ⟨"backend", [], [⟨"compute", some "Calc"⟩, ⟨"translate", none⟩], ["Calc"]⟩)]

/-- C7 counterexample: the `Calc` class node also lists `translate`,
which belongs to no class, because `_get_class_functions` returns the
file's entire function list. -/
theorem claim_C7_cex : ¬ claimC7 := by
  intro h
  have h2 := h c7Table "a.py"
    ⟨"backend", [], [⟨"compute", some "Calc"⟩, ⟨"translate", none⟩], ["Calc"]⟩
    "Calc" (by decide) (by decide) (by decide)
    ⟨"class_Calc_a", "Calc Class", "Class", ["a.py"], ["Calc"],
     ["compute", "translate"]⟩
    (by decide) (by decide)
  exact absurd h2 (by decide)

theorem nodeInsert_mem_of (m : List ENode) (n v : ENode) (hv : v ∈ m)
    (hcompat : v.id = n.id → v = n) : v ∈ nodeInsert m n := by
  unfold nodeInsert
  split
  · refine List.mem_map.2 ⟨v, hv, ?_⟩
    by_cases hid : v.id = n.id
    · rw [if_pos hid, ← hcompat hid]
    · rw [if_neg hid]
  · exact List.mem_append.2 (Or.inl hv)

theorem nodeInsert_self_mem (m : List ENode) (n : ENode) : n ∈ nodeInsert m n := by
  unfold nodeInsert
  split
  · next hany =>
    rcases List.any_eq_true.1 hany with ⟨e, he, hid⟩
    refine List.mem_map.2 ⟨e, he, ?_⟩
    rw [if_pos (of_decide_eq_true hid)]
  · simp

theorem foldl_nodeInsert_stable (l : List ENode) (acc : List ENode) (v : ENode)
    (hv : v ∈ acc) (hc : ∀ w ∈ l, w.id = v.id → w = v) :
    v ∈ l.foldl nodeInsert acc := by
  induction l generalizing acc with
  | nil => exact hv
  | cons n t ih =>
    rw [List.foldl_cons]
    refine ih _ (nodeInsert_mem_of acc n v hv ?_) ?_
    · intro hid
      exact (hc n (by simp) hid.symm).symm
    · intro w hw hid
      exact hc w (by simp [hw]) hid

theorem foldl_nodeInsert_mem (l : List ENode) (v : ENode) (hv : v ∈ l)
    (hc : ∀ w ∈ l, w.id = v.id → w = v) : v ∈ l.foldl nodeInsert [] := by
  rcases List.mem_iff_append.1 hv with ⟨l1, l2, rfl⟩
  rw [List.foldl_append, List.foldl_cons]
  refine foldl_nodeInsert_stable l2 _ v (nodeInsert_self_mem _ _) ?_
  intro w hw hid
  exact hc w (by simp [hw]) hid

/-- C7, corrected: a class's IMPLEMENTATION node lists ALL of the file's
non-trivial functions — `_get_class_functions` returns the file's whole
`functions` list, so functions of other classes and standalone functions
of the same file are included as well. -/
theorem claim_C7_thm (ps : List (String × PFile)) (fp : String) (fd : PFile)
    (c : String) (hmem : (fp, fd) ∈ ps) (hc : c ∈ fd.classes)
    (hskip : shouldSkipLowLevel c = false)
    (hne : ((getClassFunctions fd).filter
      (fun f => !(shouldSkipLowLevel f))).isEmpty = false)
    (huniq : ∀ m ∈ implCandidates ps,
      m.id = (classNodeOf fp fd c).id → m = classNodeOf fp fd c) :
    classNodeOf fp fd c ∈ implNodes ps
    ∧ (classNodeOf fp fd c).functions
        = (getClassFunctions fd).filter (fun f => !(shouldSkipLowLevel f)) := by
  refine ⟨?_, rfl⟩
  have hcand : classNodeOf fp fd c ∈ implCandidates ps := by
    refine List.mem_flatMap.2 ⟨(fp, fd), hmem, ?_⟩
    unfold implCandidatesOfFile
    refine List.mem_append.2 (Or.inl ?_)
    refine List.mem_filterMap.2 ⟨c, List.mem_filter.2 ⟨hc, by rw [hskip]; rfl⟩, ?_⟩
    rw [if_neg (by rw [hne]; exact Bool.false_ne_true)]
  exact foldl_nodeInsert_mem _ _ hcand huniq

theorem claim_C7_witness :
    classNodeOf "a.py"
      ⟨"backend", [], [⟨"compute", some "Calc"⟩, ⟨"translate", none⟩], ["Calc"]⟩
      "Calc" ∈ implNodes c7Table
    ∧ (classNodeOf "a.py"
        ⟨"backend", [], [⟨"compute", some "Calc"⟩, ⟨"translate", none⟩], ["Calc"]⟩
        "Calc").functions
      = (getClassFunctions
          ⟨"backend", [], [⟨"compute", some "Calc"⟩, ⟨"translate", none⟩], ["Calc"]⟩).filter
          (fun f => !(shouldSkipLowLevel f)) :=
  claim_C7_thm c7Table "a.py"
    ⟨"backend", [], [⟨"compute", some "Calc"⟩, ⟨"translate", none⟩], ["Calc"]⟩
    "Calc" (by decide) (by decide) (by decide) (by decide) (by decide)

/-! ## Visualization builder (`build_viz_draft.py`)

Coordinates are exact: `x` is a rational (Python float arithmetic here is
exact halving and small-integer sums), `y` is always one of the integer
`Y_LAYERS` constants.  `find_ancestor_level` is a `while` loop following
parent pointers; it is embedded with fuel one larger than the number of
CONTAINS edges, which is enough for every walk on which the Python loop
terminates (such a walk visits pairwise distinct edges). -/

/-- The fixed vertical bands `Y_LAYERS`. -/
def Y_LAYERS : List Nat := [150, 230, 310, 390, 470, 550]

/-- `LEVEL_ROWS`: the two rows reserved for each hierarchy level. -/
def LEVEL_ROWS (level : String) : List Nat :=
  if level = "BUSINESS" then [150, 230]
  else if level = "SYSTEM" then [310, 390]
  else if level = "IMPLEMENTATION" then [470, 550]
  else []

/-- `TOP_N_DEPENDS`. -/
def TOP_N_DEPENDS : Nat := 5

/-- `MIN_WEIGHT`. -/
def MIN_WEIGHT : Nat := 1

/-- A node of the input AST graph JSON. -/
structure ANode where
  id : String
  name : String
  level : String
  ntype : String
  files : List String
deriving DecidableEq, Repr

/-- An edge of the input AST graph JSON. -/
structure AEdge where
  from_node : String
  to_node : String
  etype : String
deriving DecidableEq, Repr

/-- The input AST graph. -/
structure AGraph where
  nodes : List ANode
  edges : List AEdge
deriving DecidableEq, Repr

/-- A node position.  `x2` stores TWICE the x coordinate: the source's
float arithmetic here only ever produces exact half-integers
(`(j - (len - 1) / 2.0) * step` plus integer centres), so doubling keeps
every coordinate an integer. -/
structure VPos where
  x2 : Int
  y : Nat
deriving DecidableEq, Repr

/-- A node of the visualization draft (fields the claims inspect). -/
structure VNode where
  id : String
  name : String
  level : String
  external : Bool
  pos : VPos
deriving DecidableEq, Repr

/-- An edge of the visualization draft. -/
structure VEdge where
  eid : String
  efrom : String
  eto : String
  etype : String
  weight : Nat
  rollup : List String
deriving DecidableEq, Repr

/-- `build_parent_maps`: the parent of a node is the source of the last
CONTAINS edge targeting it (later dict assignments overwrite). -/
def parentOf (edges : List AEdge) (c : String) : Option String :=
  ((edges.filter (fun e => lowerStr e.etype = "contains")).reverse.find?
    (fun e => e.to_node = c)).map (fun e => e.from_node)

/-- `nodes_by_id` lookup (the last node with a given id wins). -/
def nodeById (g : AGraph) (i : String) : Option ANode :=
  (g.nodes.reverse.find? (fun n => n.id = i)).map (fun n => n)

/-- `find_ancestor_level`, fueled. -/
def findAncestorLevel (g : AGraph) (level : String) : Nat → String → Option String
  | 0, _ => none
  | fuel + 1, cur =>
    match parentOf g.edges cur with
    | none => none
    | some p =>
      match nodeById g p with
      | some n =>
        if n.level = level then some p else findAncestorLevel g level fuel p
      | none => findAncestorLevel g level fuel p

/-- The nearest SYSTEM ancestor of a node. -/
def sysAncestor (g : AGraph) (nid : String) : Option String :=
  findAncestorLevel g "SYSTEM"
    ((g.edges.filter (fun e => lowerStr e.etype = "contains")).length + 1) nid

/-- Ids of BUSINESS-level nodes, in input order. -/
def businessIds (g : AGraph) : List String :=
  (g.nodes.filter (fun n => n.level = "BUSINESS")).map (fun n => n.id)

/-- Ids of SYSTEM-level nodes, in input order. -/
def systemIds (g : AGraph) : List String :=
  (g.nodes.filter (fun n => n.level = "SYSTEM")).map (fun n => n.id)

/-- Ids of IMPLEMENTATION-level nodes, in input order. -/
def implIds (g : AGraph) : List String :=
  (g.nodes.filter (fun n => n.level = "IMPLEMENTATION")).map (fun n => n.id)

/-- Increment of the `weights` counter dict. -/
def pairIncr (m : List ((String × String) × Nat)) (k : String × String) :
    List ((String × String) × Nat) :=
  if m.any (fun p => p.1 = k) then
    m.map (fun p => if p.1 = k then (k, p.2 + 1) else p)
  else m ++ [(k, 1)]

/-- The `weights` dict: CALLS edges grouped by the (source, target)
SYSTEM-ancestor pair, skipping same-system and missing/empty ancestors. -/
def weightsList (g : AGraph) : List ((String × String) × Nat) :=
  g.edges.foldl (fun acc e =>
    if lowerStr e.etype = "calls" then
      match sysAncestor g e.from_node, sysAncestor g e.to_node with
      | some sa, some sb =>
        if !(sa = "") && !(sb = "") && !(sa = sb) then pairIncr acc (sa, sb) else acc
      | _, _ => acc
    else acc) []

/-- Source keys of `per_src`, in first-appearance order. -/
def firstKeys (w : List ((String × String) × Nat)) : List String :=
  dedupFirst (w.map (fun p => p.1.1))

/-- `per_src[sa]`: candidate (target, weight) pairs in weights order. -/
def candsOf (g : AGraph) (sa : String) : List (String × Nat) :=
  (weightsList g).filterMap (fun p =>
    if p.1.1 = sa then some (p.1.2, p.2) else none)

/-- `per_src`, in first-appearance key order. -/
def perSrc (g : AGraph) : List (String × List (String × Nat)) :=
  (firstKeys (weightsList g)).map (fun sa => (sa, candsOf g sa))

/-- The sort order of `lst.sort(key=lambda x: (-x[1], x[0]))`:
descending weight, then ascending target id. -/
def candLe (a b : String × Nat) : Prop :=
  b.2 < a.2 ∨ (a.2 = b.2 ∧ strLe a.1 b.1 = true)

instance : DecidableRel candLe := fun a b => by
  unfold candLe
  infer_instance

instance : IsTotal (String × Nat) candLe where
  total a b := by
    rcases Nat.lt_trichotomy a.2 b.2 with h | h | h
    · exact Or.inr (Or.inl h)
    · rcases lexLe_total a.1.data b.1.data with h2 | h2
      · exact Or.inl (Or.inr ⟨h, h2⟩)
      · exact Or.inr (Or.inr ⟨h.symm, h2⟩)
    · exact Or.inl (Or.inl h)

instance : IsTrans (String × Nat) candLe where
  trans a b c hab hbc := by
    rcases hab with h1 | ⟨h1, h1s⟩
    · rcases hbc with h2 | ⟨h2, _⟩
      · exact Or.inl (Nat.lt_trans h2 h1)
      · exact Or.inl (h2 ▸ h1)
    · rcases hbc with h2 | ⟨h2, h2s⟩
      · exact Or.inl (h1 ▸ h2)
      · exact Or.inr ⟨h1.trans h2, lexLe_trans _ _ _ h1s h2s⟩

/-- The surviving candidates of one source: top `TOP_N_DEPENDS` of the
sorted list, minus those below `MIN_WEIGHT`. -/
def keptOf (lst : List (String × Nat)) : List (String × Nat) :=
  ((List.insertionSort candLe lst).take TOP_N_DEPENDS).filter
    (fun c => MIN_WEIGHT ≤ c.2)

/-- A rolled-up `depends_on` edge. -/
def mkDepEdge (sa : String) (c : String × Nat) : VEdge :=
  ⟨sa ++ "->" ++ c.1 ++ "#dep", sa, c.1, "depends_on", c.2, ["calls_rollup"]⟩

/-- The rolled-up `depends_on` edges, per source in `per_src` order. -/
def rollupEdges (g : AGraph) : List VEdge :=
  (perSrc g).flatMap (fun pr => (keptOf pr.2).map (mkDepEdge pr.1))

/-- The copied `contains` edges. -/
def containsVizEdges (g : AGraph) : List VEdge :=
  (g.edges.filter (fun e => lowerStr e.etype = "contains")).map (fun e =>
    ⟨e.from_node ++ "->" ++ e.to_node, e.from_node, e.to_node, "contains", 1, []⟩)

/-- The skeleton visualization node of an AST node id. -/
def skeletonNode (g : AGraph) (nid : String) : VNode :=
  match nodeById g nid with
  | some src => ⟨nid, src.name, src.level, false, ⟨0, 0⟩⟩
  | none => ⟨nid, nid, "", false, ⟨0, 0⟩⟩

/-- Dict insertion of a viz node keyed by id. -/
def vizInsert (m : List VNode) (n : VNode) : List VNode :=
  if m.any (fun v => v.id = n.id) then
    m.map (fun v => if v.id = n.id then n else v)
  else m ++ [n]

/-- The skeleton node map, in `business + system + implementation` order. -/
def skeletonNodes (g : AGraph) : List VNode :=
  (businessIds g ++ systemIds g ++ implIds g).foldl
    (fun acc nid => vizInsert acc (skeletonNode g nid)) []

/-- An external stub node (created by `add_external_stub` with `x = 0` and
`y = LEVEL_ROWS["SYSTEM"][1]`). -/
def stubNode (sid name : String) : VNode := ⟨sid, name, "SYSTEM", true, ⟨0, 390⟩⟩

/-- Insert-if-absent for stub nodes. -/
def stubInsert (m : List VNode) (n : VNode) : List VNode :=
  if m.any (fun v => v.id = n.id) then m else m ++ [n]

/-- The `depends_on` edge appended by `add_external_stub`. -/
def stubEdge (src sid : String) : VEdge :=
  ⟨src ++ "->" ++ sid ++ "#dep", src, sid, "depends_on", 1, ["external_stub"]⟩

/-- The first SYSTEM id whose node name contains `api`. -/
def apiSysId (g : AGraph) : Option String :=
  (systemIds g).find? (fun sid =>
    strContainsSub (lowerStr (match nodeById g sid with
      | some n => n.name
      | none => " ")) "api")

/-- Stub actions (link source, stub id, stub name) triggered by one
implementation node's name and files. -/
def stubStepsOfImpl (g : AGraph) (iid : String) :
    List (String × String × String) :=
  match sysAncestor g iid with
  | none => []
  | some sp =>
    let nm := lowerStr (match nodeById g iid with
      | some n => n.name
      | none => iid)
    let files := match nodeById g iid with
      | some n => n.files
      | none => []
    (if strContainsSub nm "externalapi"
        || files.any (fun f => strContainsSub f "external_api"
            || strContainsSub f "integrations/external_api")
     then [(sp, "external_api_provider", "External API")] else [])
    ++ (if strContainsSub nm "llm" || files.any (fun f => strContainsSub f "llm_service")
        then [(sp, "external_llm_service", "LLM Service")] else [])
    ++ (if strContainsSub nm "auth" || files.any (fun f => strContainsSub f "auth_provider")
        then [((apiSysId g).getD sp, "external_auth_provider", "Auth Provider")]
        else [])

/-- The `Actor(User)` stub action, when an `api` SYSTEM node exists. -/
def actorTriples (g : AGraph) : List (String × String × String) :=
  match apiSysId g with
  | some s => [(s, "actor_user", "User")]
  | none => []

/-- All stub actions, in trigger order. -/
def stubTriples (g : AGraph) : List (String × String × String) :=
  ((implIds g).flatMap (fun iid => stubStepsOfImpl g iid)) ++ actorTriples g

/-- The `depends_on` edges of the stub phase (appended unconditionally,
once per trigger). -/
def stubVizEdges (g : AGraph) : List VEdge :=
  (stubTriples g).map (fun t => stubEdge t.1 t.2.1)

/-- The stub phase applied to the node map. -/
def stubPhaseNodes (g : AGraph) (m : List VNode) : List VNode :=
  (stubTriples g).foldl (fun acc t => stubInsert acc (stubNode t.2.1 t.2.2)) m

/-- The full visualization edge list, in append order: contains edges,
roll-up edges, stub edges. -/
def vizEdges (g : AGraph) : List VEdge :=
  containsVizEdges g ++ rollupEdges g ++ stubVizEdges g

/-- The degree a node receives in `degree_center_order`. -/
def degreeOf (edges : List VEdge) (i : String) : Nat :=
  (edges.filter (fun e => e.efrom = i)).length
    + (edges.filter (fun e => e.eto = i)).length

/-- The sibling order `sorted(ids, key=lambda i: (-deg[i], i))`. -/
def degRel (edges : List VEdge) (a b : String) : Prop :=
  degreeOf edges b < degreeOf edges a
    ∨ (degreeOf edges a = degreeOf edges b ∧ strLe a b = true)

instance (edges : List VEdge) : DecidableRel (degRel edges) := fun a b => by
  unfold degRel
  infer_instance

/-- `degree_center_order`. -/
def degreeCenterOrder (ids : List String) (edges : List VEdge) : List String :=
  List.insertionSort (degRel edges) ids

/-- Python `sorted` on strings. -/
def strSort (l : List String) : List String :=
  List.insertionSort (fun a b => strLe a b = true) l

/-- Position assignments of the BUSINESS layout loop, in loop order. -/
def bAssigns (g : AGraph) : List (String × VPos) :=
  (strSort (businessIds g)).enum.map (fun p =>
    (p.2, ⟨2 * (200 + (p.1 : Int) * 350),
           (LEVEL_ROWS "BUSINESS").getD (if p.1 % 2 = 0 then 0 else 1) 0⟩))

/-- The `bx` map with its default of 200 (doubled). -/
def bxOf (g : AGraph) (bid : String) : Int :=
  match (bAssigns g).find? (fun a => a.1 = bid) with
  | some a => a.2.x2
  | none => 400

/-- Append to a dict keyed by optional parent id. -/
def odictAppend (m : List (Option String × List String)) (k : Option String)
    (v : String) : List (Option String × List String) :=
  if m.any (fun p => p.1 = k) then
    m.map (fun p => if p.1 = k then (p.1, p.2 ++ [v]) else p)
  else m ++ [(k, [v])]

/-- `sys_groups`: SYSTEM ids grouped by their CONTAINS parent. -/
def sysGroups (g : AGraph) : List (Option String × List String) :=
  (systemIds g).foldl (fun acc sid => odictAppend acc (parentOf g.edges sid) sid) []

/-- Position assignments of the SYSTEM layout loop. -/
def sAssigns (g : AGraph) : List (String × VPos) :=
  (sysGroups g).flatMap (fun pr =>
    (degreeCenterOrder pr.2 (vizEdges g)).enum.map (fun q =>
      (q.2, ⟨(match pr.1 with
              | some bp => bxOf g bp
              | none => 400)
              + (2 * (q.1 : Int)
                  - (((degreeCenterOrder pr.2 (vizEdges g)).length : Int) - 1))
                * 180,
             (LEVEL_ROWS "SYSTEM").getD (if q.1 % 2 = 0 then 0 else 1) 0⟩)))

/-- The `sx` map with its default of 200 (doubled). -/
def sxOf (g : AGraph) (sid : String) : Int :=
  match (sAssigns g).find? (fun a => a.1 = sid) with
  | some a => a.2.x2
  | none => 400

/-- `impl_groups`: IMPLEMENTATION ids grouped by SYSTEM ancestor. -/
def implGroups (g : AGraph) : List (Option String × List String) :=
  (implIds g).foldl (fun acc iid => odictAppend acc (sysAncestor g iid) iid) []

/-- Position assignments of the IMPLEMENTATION layout loop. -/
def iAssigns (g : AGraph) : List (String × VPos) :=
  (implGroups g).flatMap (fun pr =>
    (degreeCenterOrder pr.2 (vizEdges g)).enum.map (fun q =>
      (q.2, ⟨(match pr.1 with
              | some sp => sxOf g sp
              | none => 400)
              + (2 * (q.1 : Int)
                  - (((degreeCenterOrder pr.2 (vizEdges g)).length : Int) - 1))
                * 140,
             (LEVEL_ROWS "IMPLEMENTATION").getD (if q.1 % 2 = 0 then 0 else 1) 0⟩)))

/-- Write one position assignment into the node map. -/
def setPos (m : List VNode) (a : String × VPos) : List VNode :=
  m.map (fun v => if v.id = a.1 then { v with pos := a.2 } else v)

/-- Apply a batch of position assignments in order. -/
def applyAssigns (m : List VNode) (l : List (String × VPos)) : List VNode :=
  l.foldl setPos m

/-- The final node list of `build_viz`: skeleton, stubs, then the three
layout passes. -/
def vizNodes (g : AGraph) : List VNode :=
  applyAssigns
    (applyAssigns
      (applyAssigns (stubPhaseNodes g (skeletonNodes g)) (bAssigns g))
      (sAssigns g))
    (iAssigns g)

/-- The visualization graph. -/
structure VizGraph where
  nodes : List VNode
  edges : List VEdge
deriving DecidableEq, Repr

/-- `build_viz`, restricted to the node and edge content. -/
def buildViz (g : AGraph) : VizGraph := ⟨vizNodes g, vizEdges g⟩

/-! ## Claims about the roll-up and layout (C1, C6, C9) -/

theorem dedupFirst_fold_superset (l acc : List String) (x : String)
    (h : x ∈ acc) :
    x ∈ l.foldl (fun acc a => if a ∈ acc then acc else acc ++ [a]) acc := by
  induction l generalizing acc with
  | nil => exact h
  | cons a t ih =>
    rw [List.foldl_cons]
    by_cases ha : a ∈ acc
    · rw [if_pos ha]; exact ih _ h
    · rw [if_neg ha]; exact ih _ (List.mem_append.2 (Or.inl h))

theorem dedupFirst_mem (l : List String) (x : String) (h : x ∈ l) :
    x ∈ dedupFirst l := by
  unfold dedupFirst
  rcases List.mem_iff_append.1 h with ⟨l1, l2, rfl⟩
  rw [List.foldl_append, List.foldl_cons]
  set acc := l1.foldl (fun acc a => if a ∈ acc then acc else acc ++ [a]) []
  by_cases hx : x ∈ acc
  · rw [if_pos hx]; exact dedupFirst_fold_superset _ _ _ hx
  · rw [if_neg hx]
    exact dedupFirst_fold_superset _ _ _ (List.mem_append.2 (Or.inr (by simp)))

theorem dedupFirst_fold_nodup (l acc : List String) (h : acc.Nodup) :
    (l.foldl (fun acc a => if a ∈ acc then acc else acc ++ [a]) acc).Nodup := by
  induction l generalizing acc with
  | nil => exact h
  | cons a t ih =>
    rw [List.foldl_cons]
    by_cases ha : a ∈ acc
    · rw [if_pos ha]; exact ih _ h
    · rw [if_neg ha]
      refine ih _ (List.nodup_append.2 ⟨h, List.nodup_singleton a, ?_⟩)
      intro y hy hy2
      rw [List.mem_singleton.1 hy2] at hy
      exact ha hy

theorem dedupFirst_nodup (l : List String) : (dedupFirst l).Nodup :=
  dedupFirst_fold_nodup l [] List.nodup_nil

theorem candsOf_mem_firstKeys (g : AGraph) (sa : String) (c : String × Nat)
    (h : c ∈ candsOf g sa) : sa ∈ firstKeys (weightsList g) := by
  unfold candsOf at h
  rcases List.mem_filterMap.1 h with ⟨p, hp, hpc⟩
  split at hpc
  · next heq =>
    exact dedupFirst_mem _ _ (List.mem_map.2 ⟨p, hp, heq⟩)
  · exact absurd hpc (by simp)

theorem find_map_keys (keys : List String) (f : String → List (String × Nat))
    (sa : String) (h : sa ∈ keys) :
    ((keys.map (fun k => (k, f k))).find? (fun pr => pr.1 = sa))
      = some (sa, f sa) := by
  induction keys with
  | nil => exact absurd h (List.not_mem_nil sa)
  | cons k t ih =>
    rw [List.map_cons, List.find?_cons]
    by_cases hk : k = sa
    · subst hk
      simp
    · have hd : (decide ((k, f k).1 = sa)) = false := by simp [hk]
      rw [hd]
      have ht : sa ∈ t := by
        rcases List.mem_cons.1 h with h1 | h1
        · exact absurd h1.symm hk
        · exact h1
      exact ih ht

/-- The roll-up `depends_on` edges leaving a given source in the final
edge list. -/
def outRollup (g : AGraph) (sa : String) : List VEdge :=
  (vizEdges g).filter (fun e =>
    e.etype = "depends_on" && e.rollup = ["calls_rollup"] && e.efrom = sa)

theorem filter_groups (l : List (String × List (String × Nat))) (sa : String)
    (hnd : (l.map Prod.fst).Nodup) :
    ((l.flatMap (fun pr => (keptOf pr.2).map (mkDepEdge pr.1))).filter
      (fun e => e.etype = "depends_on" && e.rollup = ["calls_rollup"] && e.efrom = sa))
    = match l.find? (fun pr => pr.1 = sa) with
      | some pr => (keptOf pr.2).map (mkDepEdge pr.1)
      | none => [] := by
  induction l with
  | nil => rfl
  | cons pr t ih =>
    rw [List.flatMap_cons, List.filter_append, List.find?_cons]
    rw [List.map_cons] at hnd
    by_cases hk : pr.1 = sa
    · have hd : (decide (pr.1 = sa)) = true := by simp [hk]
      rw [hd]
      have hhead : ((keptOf pr.2).map (mkDepEdge pr.1)).filter
          (fun e => e.etype = "depends_on" && e.rollup = ["calls_rollup"] && e.efrom = sa)
          = (keptOf pr.2).map (mkDepEdge pr.1) := by
        refine List.filter_eq_self.2 ?_
        intro e he
        rcases List.mem_map.1 he with ⟨c, _, rfl⟩
        simp [mkDepEdge, hk]
      have htail : (t.flatMap (fun pr => (keptOf pr.2).map (mkDepEdge pr.1))).filter
          (fun e => e.etype = "depends_on" && e.rollup = ["calls_rollup"] && e.efrom = sa)
          = [] := by
        rw [ih (List.Nodup.of_cons hnd)]
        have : t.find? (fun pr => pr.1 = sa) = none := by
          refine List.find?_eq_none.2 ?_
          intro q hq
          simp only [decide_eq_true_eq]
          intro hq2
          exact (List.nodup_cons.1 hnd).1 (hk ▸ hq2 ▸ List.mem_map.2 ⟨q, hq, rfl⟩)
        rw [this]
      rw [hhead, htail, List.append_nil]
    · have hd : (decide (pr.1 = sa)) = false := by simp [hk]
      rw [hd]
      have hhead : ((keptOf pr.2).map (mkDepEdge pr.1)).filter
          (fun e => e.etype = "depends_on" && e.rollup = ["calls_rollup"] && e.efrom = sa)
          = [] := by
        refine List.filter_eq_nil_iff.2 ?_
        intro e he
        rcases List.mem_map.1 he with ⟨c, _, rfl⟩
        simp [mkDepEdge, hk]
      rw [hhead, List.nil_append]
      exact ih (List.Nodup.of_cons hnd)

theorem contains_filter_nil (g : AGraph) (sa : String) :
    (containsVizEdges g).filter (fun e =>
      e.etype = "depends_on" && e.rollup = ["calls_rollup"] && e.efrom = sa) = [] := by
  refine List.filter_eq_nil_iff.2 ?_
  intro e he
  rcases List.mem_map.1 he with ⟨e0, _, rfl⟩
  simp [show ("contains" : String) ≠ "depends_on" from by decide]

theorem stub_filter_nil (g : AGraph) (sa : String) :
    (stubVizEdges g).filter (fun e =>
      e.etype = "depends_on" && e.rollup = ["calls_rollup"] && e.efrom = sa) = [] := by
  refine List.filter_eq_nil_iff.2 ?_
  intro e he
  rcases List.mem_map.1 he with ⟨t, _, rfl⟩
  simp [stubEdge, show (["external_stub"] : List String) ≠ ["calls_rollup"] from by decide]

theorem perSrc_keys_nodup (g : AGraph) :
    (((firstKeys (weightsList g)).map
      (fun sa => (sa, candsOf g sa))).map Prod.fst).Nodup := by
  have h : (((firstKeys (weightsList g)).map
      (fun sa => (sa, candsOf g sa))).map Prod.fst)
      = firstKeys (weightsList g) := by
    rw [List.map_map]
    exact List.map_id _
  rw [h]
  exact dedupFirst_nodup _

theorem outRollup_eq (g : AGraph) (sa : String)
    (h : sa ∈ firstKeys (weightsList g)) :
    outRollup g sa = (keptOf (candsOf g sa)).map (mkDepEdge sa) := by
  unfold outRollup vizEdges
  rw [List.filter_append, List.filter_append, contains_filter_nil, stub_filter_nil,
    List.nil_append, List.append_nil]
  unfold rollupEdges perSrc
  rw [filter_groups _ sa (perSrc_keys_nodup g)]
  rw [find_map_keys _ _ _ h]

theorem outRollup_eq_nil (g : AGraph) (sa : String)
    (h : sa ∉ firstKeys (weightsList g)) : outRollup g sa = [] := by
  unfold outRollup vizEdges
  rw [List.filter_append, List.filter_append, contains_filter_nil, stub_filter_nil,
    List.nil_append, List.append_nil]
  unfold rollupEdges perSrc
  rw [filter_groups _ sa (perSrc_keys_nodup g)]
  have : ((firstKeys (weightsList g)).map (fun sa => (sa, candsOf g sa))).find?
      (fun pr => pr.1 = sa) = none := by
    refine List.find?_eq_none.2 ?_
    intro q hq
    rcases List.mem_map.1 hq with ⟨k, hk, rfl⟩
    simp only [decide_eq_true_eq]
    intro hks
    exact h (hks ▸ hk)
  rw [this]

theorem take_drop_rel (lst : List (String × Nat)) (c c' : String × Nat)
    (hc' : c' ∈ (List.insertionSort candLe lst).take TOP_N_DEPENDS)
    (hc : c ∈ lst)
    (hnot : c ∉ (List.insertionSort candLe lst).take TOP_N_DEPENDS) :
    candLe c' c := by
  have hsorted : List.Sorted candLe (List.insertionSort candLe lst) :=
    List.sorted_insertionSort candLe lst
  have hcs : c ∈ List.insertionSort candLe lst :=
    (List.perm_insertionSort candLe lst).mem_iff.2 hc
  have hsplit : c ∈ (List.insertionSort candLe lst).take TOP_N_DEPENDS
      ++ (List.insertionSort candLe lst).drop TOP_N_DEPENDS := by
    rw [List.take_append_drop]
    exact hcs
  rcases List.mem_append.1 hsplit with h1 | h1
  · exact absurd h1 hnot
  · have hp : List.Pairwise candLe
        ((List.insertionSort candLe lst).take TOP_N_DEPENDS
          ++ (List.insertionSort candLe lst).drop TOP_N_DEPENDS) := by
      rw [List.take_append_drop]
      exact hsorted
    exact (List.pairwise_append.1 hp).2.2 c' hc' c h1

/-- C1, corrected: the top-N bound, the minimum-weight bound and top-N
optimality all hold for the roll-up-derived `depends_on` edges (those
tagged `calls_rollup`); external-stub `depends_on` edges are emitted
outside this bound. -/
theorem claim_C1_thm (g : AGraph) (sa : String) :
    (outRollup g sa).length ≤ TOP_N_DEPENDS
    ∧ (∀ e ∈ outRollup g sa, MIN_WEIGHT ≤ e.weight)
    ∧ (∀ c ∈ candsOf g sa, c ∉ keptOf (candsOf g sa) →
        ∀ e ∈ outRollup g sa, c.2 ≤ e.weight) := by
  by_cases h : sa ∈ firstKeys (weightsList g)
  · rw [outRollup_eq g sa h]
    refine ⟨?_, ?_, ?_⟩
    · rw [List.length_map]
      calc (keptOf (candsOf g sa)).length
          ≤ ((List.insertionSort candLe (candsOf g sa)).take TOP_N_DEPENDS).length :=
            List.length_filter_le _ _
        _ ≤ TOP_N_DEPENDS := List.length_take_le _ _
    · intro e he
      rcases List.mem_map.1 he with ⟨c, hc, rfl⟩
      have hmf := (List.mem_filter.1 hc).2
      simpa using hmf
    · intro c hc hnot e he
      rcases List.mem_map.1 he with ⟨c', hc', rfl⟩
      show c.2 ≤ c'.2
      by_cases h5 : c ∈ (List.insertionSort candLe (candsOf g sa)).take TOP_N_DEPENDS
      · have hw : ¬ (MIN_WEIGHT ≤ c.2) := by
          intro hmw
          exact hnot (List.mem_filter.2 ⟨h5, by simpa using hmw⟩)
        have hw' : MIN_WEIGHT ≤ c'.2 := by
          have := (List.mem_filter.1 hc').2
          simpa using this
        omega
      · have hrel := take_drop_rel (candsOf g sa) c c'
          (List.mem_of_mem_filter hc') hc h5
        rcases hrel with h1 | ⟨h1, _⟩
        · exact Nat.le_of_lt h1
        · exact Nat.le_of_eq h1.symm
  · rw [outRollup_eq_nil g sa h]
    refine ⟨by simp [TOP_N_DEPENDS], ?_, ?_⟩
    · intro e he
      exact absurd he (List.not_mem_nil e)
    · intro c hc
      exact absurd (candsOf_mem_firstKeys g sa c hc) h

/-- The claim of C1 as stated: for every SYSTEM node of the output, ALL
its outgoing `depends_on` edges respect the top-N bound, the minimum
weight, and top-N optimality. -/
def claimC1 : Prop :=
  ∀ (g : AGraph), ∀ n ∈ (buildViz g).nodes, n.level = "SYSTEM" →
    (((buildViz g).edges.filter
        (fun e => e.etype = "depends_on" && e.efrom = n.id)).length ≤ TOP_N_DEPENDS)
    ∧ (∀ e ∈ (buildViz g).edges, e.etype = "depends_on" → e.efrom = n.id →
        MIN_WEIGHT ≤ e.weight)
    ∧ (∀ c ∈ candsOf g n.id, mkDepEdge n.id c ∉ (buildViz g).edges →
        ∀ e ∈ (buildViz g).edges, e.etype = "depends_on" → e.efrom = n.id →
          c.2 ≤ e.weight)

/-- C1 counterexample graph: one SYSTEM node with six implementation
children whose names contain `llm`. -/
def cg1 : AGraph :=
  ⟨[⟨"b", "biz", "BUSINESS", "Module", []⟩,
    ⟨"sa", "alpha", "SYSTEM", "Service", []⟩,
    ⟨"i1", "llm one", "IMPLEMENTATION", "Class", []⟩,
    ⟨"i2", "llm two", "IMPLEMENTATION", "Class", []⟩,
    ⟨"i3", "llm three", "IMPLEMENTATION", "Class", []⟩,
    ⟨"i4", "llm four", "IMPLEMENTATION", "Class", []⟩,
    ⟨"i5", "llm five", "IMPLEMENTATION", "Class", []⟩,
    ⟨"i6", "llm six", "IMPLEMENTATION", "Class", []⟩],
   [⟨"b", "sa", "contains"⟩,
    ⟨"sa", "i1", "contains"⟩, ⟨"sa", "i2", "contains"⟩,
    ⟨"sa", "i3", "contains"⟩, ⟨"sa", "i4", "contains"⟩,
    ⟨"sa", "i5", "contains"⟩, ⟨"sa", "i6", "contains"⟩]⟩

/-- C1 counterexample: each `llm` implementation child appends another
external-stub `depends_on` edge from its SYSTEM parent, so `sa` ends up
with six outgoing `depends_on` edges. -/
theorem claim_C1_cex : ¬ claimC1 := by
  intro h
  have h2 := (h cg1 ⟨"sa", "alpha", "SYSTEM", false, ⟨400, 310⟩⟩
    (by decide) rfl).1
  exact absurd h2 (by decide)

/-- C6 witness graph: one source SYSTEM with two equal-weight targets. -/
def cg2 : AGraph :=
  ⟨[⟨"b", "biz", "BUSINESS", "Module", []⟩,
    ⟨"sa", "alpha", "SYSTEM", "Service", []⟩,
    ⟨"s_b", "beta", "SYSTEM", "Service", []⟩,
    ⟨"s_c", "gamma", "SYSTEM", "Service", []⟩,
    ⟨"ia", "one", "IMPLEMENTATION", "Class", []⟩,
    ⟨"ib", "two", "IMPLEMENTATION", "Class", []⟩,
    ⟨"ic", "three", "IMPLEMENTATION", "Class", []⟩],
   [⟨"b", "sa", "contains"⟩, ⟨"b", "s_b", "contains"⟩, ⟨"b", "s_c", "contains"⟩,
    ⟨"sa", "ia", "contains"⟩, ⟨"s_b", "ib", "contains"⟩, ⟨"s_c", "ic", "contains"⟩,
    ⟨"ia", "ib", "calls"⟩, ⟨"ia", "ic", "calls"⟩]⟩

theorem claim_C1_witness :
    (outRollup cg2 "sa").length ≤ TOP_N_DEPENDS
    ∧ MIN_WEIGHT ≤ (mkDepEdge "sa" ("s_b", 1)).weight :=
  ⟨(claim_C1_thm cg2 "sa").1,
   (claim_C1_thm cg2 "sa").2.1 (mkDepEdge "sa" ("s_b", 1)) (by decide)⟩

theorem mkDepEdge_mem_iff (g : AGraph) (sa : String) (c : String × Nat) :
    mkDepEdge sa c ∈ vizEdges g
      ↔ sa ∈ firstKeys (weightsList g) ∧ c ∈ keptOf (candsOf g sa) := by
  constructor
  · intro h
    rcases List.mem_append.1 h with h1 | h1
    · rcases List.mem_append.1 h1 with h2 | h2
      · exfalso
        rcases List.mem_map.1 h2 with ⟨e0, _, he⟩
        have hr : ([] : List String) = ["calls_rollup"] := congrArg VEdge.rollup he
        exact absurd hr (by decide)
      · rcases List.mem_flatMap.1 h2 with ⟨pr, hpr, h3⟩
        rcases List.mem_map.1 h3 with ⟨c', hc', he⟩
        unfold perSrc at hpr
        rcases List.mem_map.1 hpr with ⟨k, hk, rfl⟩
        have hfrom : k = sa := congrArg VEdge.efrom he
        have hto : c'.1 = c.1 := congrArg VEdge.eto he
        have hwt : c'.2 = c.2 := congrArg VEdge.weight he
        have hcc : c' = c := Prod.ext hto hwt
        subst hfrom
        refine ⟨hk, ?_⟩
        rw [← hcc]
        exact hc'
    · exfalso
      rcases List.mem_map.1 h1 with ⟨t, _, he⟩
      have hr : (["external_stub"] : List String) = ["calls_rollup"] :=
        congrArg VEdge.rollup he
      exact absurd hr (by decide)
  · rintro ⟨h1, h2⟩
    unfold vizEdges
    refine List.mem_append.2 (Or.inl (List.mem_append.2 (Or.inr ?_)))
    unfold rollupEdges perSrc
    refine List.mem_flatMap.2 ⟨(sa, candsOf g sa), List.mem_map.2 ⟨sa, h1, rfl⟩, ?_⟩
    exact List.mem_map.2 ⟨c, h2, rfl⟩

/-- C6: among equal-weight roll-up candidates of one source, the
lexicographically smaller target id is kept in preference: if the larger
id survives, so does the smaller one. -/
theorem claim_C6_thm (g : AGraph) (sa t1 t2 : String) (w : Nat)
    (h1 : (t1, w) ∈ candsOf g sa) (h2 : (t2, w) ∈ candsOf g sa)
    (hle : strLe t1 t2 = true) (hne : t1 ≠ t2)
    (hkept : mkDepEdge sa (t2, w) ∈ (buildViz g).edges) :
    mkDepEdge sa (t1, w) ∈ (buildViz g).edges := by
  have hk := (mkDepEdge_mem_iff g sa (t2, w)).1 hkept
  have h2k : (t2, w) ∈ keptOf (candsOf g sa) := hk.2
  refine (mkDepEdge_mem_iff g sa (t1, w)).2 ⟨hk.1, ?_⟩
  have h2take : (t2, w)
      ∈ (List.insertionSort candLe (candsOf g sa)).take TOP_N_DEPENDS :=
    List.mem_of_mem_filter h2k
  have h1take : (t1, w)
      ∈ (List.insertionSort candLe (candsOf g sa)).take TOP_N_DEPENDS := by
    by_contra hnot
    have hrel := take_drop_rel (candsOf g sa) (t1, w) (t2, w) h2take h1 hnot
    rcases hrel with hlt | ⟨_, hs⟩
    · exact absurd hlt (Nat.lt_irrefl w)
    · exact hne (strLe_antisymm t1 t2 hle hs)
  have hmin : MIN_WEIGHT ≤ w := by
    have := (List.mem_filter.1 h2k).2
    simpa using this
  exact List.mem_filter.2 ⟨h1take, by simpa using hmin⟩

theorem claim_C6_witness :
    mkDepEdge "sa" ("s_b", 1) ∈ (buildViz cg2).edges :=
  claim_C6_thm cg2 "sa" "s_b" "s_c" 1 (by decide) (by decide) (by decide)
    (by decide) (by decide)

theorem setPos_mem (m : List VNode) (a : String × VPos) (v : VNode)
    (h : v ∈ setPos m a) :
    ∃ u ∈ m, v.id = u.id ∧ v.level = u.level
      ∧ (v = u ∨ (v.id = a.1 ∧ v.pos = a.2)) := by
  rcases List.mem_map.1 h with ⟨u, hu, rfl⟩
  by_cases hid : u.id = a.1
  · rw [if_pos hid]
    exact ⟨u, hu, rfl, rfl, Or.inr ⟨hid, rfl⟩⟩
  · rw [if_neg hid]
    exact ⟨u, hu, rfl, rfl, Or.inl rfl⟩

theorem setPos_pos_of_key (m : List VNode) (a : String × VPos) (v : VNode)
    (h : v ∈ setPos m a) (hid : v.id = a.1) : v.pos = a.2 := by
  rcases List.mem_map.1 h with ⟨u, hu, rfl⟩
  by_cases hu2 : u.id = a.1
  · rw [if_pos hu2]
  · rw [if_neg hu2] at hid ⊢
    exact absurd hid hu2

theorem applyAssigns_mem (l : List (String × VPos)) (m : List VNode) (v : VNode)
    (h : v ∈ applyAssigns m l) :
    ∃ u ∈ m, v.id = u.id ∧ v.level = u.level
      ∧ (v = u ∨ ∃ a ∈ l, a.1 = v.id ∧ v.pos = a.2) := by
  induction l generalizing m with
  | nil => exact ⟨v, h, rfl, rfl, Or.inl rfl⟩
  | cons a t ih =>
    rcases ih (setPos m a) h with ⟨u', hu', hid, hlv, hrest⟩
    rcases setPos_mem m a u' hu' with ⟨u, hu, hid2, hlv2, hrest2⟩
    refine ⟨u, hu, hid.trans hid2, hlv.trans hlv2, ?_⟩
    rcases hrest with rfl | ⟨b, hb, hb1, hb2⟩
    · rcases hrest2 with rfl | ⟨hk, hp⟩
      · exact Or.inl rfl
      · exact Or.inr ⟨a, by simp, hk.symm, hp⟩
    · exact Or.inr ⟨b, List.mem_cons_of_mem a hb, hb1, hb2⟩

theorem applyAssigns_untouched (l : List (String × VPos)) (m : List VNode)
    (v : VNode) (h : v ∈ applyAssigns m l)
    (hid : v.id ∉ l.map Prod.fst) : v ∈ m := by
  rcases applyAssigns_mem l m v h with ⟨u, hu, _, _, hrest⟩
  rcases hrest with rfl | ⟨a, ha, ha1, _⟩
  · exact hu
  · exact absurd (ha1 ▸ List.mem_map.2 ⟨a, ha, rfl⟩) hid

theorem applyAssigns_pos_of_key (l : List (String × VPos)) (m : List VNode)
    (v : VNode) (h : v ∈ applyAssigns m l) (hk : v.id ∈ l.map Prod.fst) :
    ∃ a ∈ l, a.1 = v.id ∧ v.pos = a.2 := by
  induction l generalizing m with
  | nil => exact absurd hk (by simp)
  | cons a t ih =>
    by_cases ht : v.id ∈ t.map Prod.fst
    · rcases ih (setPos m a) h ht with ⟨b, hb, h1, h2⟩
      exact ⟨b, List.mem_cons_of_mem a hb, h1, h2⟩
    · have hv : v ∈ setPos m a := applyAssigns_untouched t (setPos m a) v h ht
      have hva : v.id = a.1 := by
        rw [List.map_cons] at hk
        rcases List.mem_cons.1 hk with h1 | h1
        · exact h1
        · exact absurd h1 ht
      exact ⟨a, by simp, hva.symm, setPos_pos_of_key m a v hv hva⟩

theorem bAssigns_y (g : AGraph) (a : String × VPos) (h : a ∈ bAssigns g) :
    a.2.y ∈ LEVEL_ROWS "BUSINESS" := by
  rcases List.mem_map.1 h with ⟨p, _, rfl⟩
  by_cases hp : p.1 % 2 = 0 <;> simp [hp, LEVEL_ROWS]

theorem sAssigns_y (g : AGraph) (a : String × VPos) (h : a ∈ sAssigns g) :
    a.2.y ∈ LEVEL_ROWS "SYSTEM" := by
  rcases List.mem_flatMap.1 h with ⟨pr, _, h2⟩
  rcases List.mem_map.1 h2 with ⟨q, _, rfl⟩
  by_cases hq : q.1 % 2 = 0 <;> simp [hq, LEVEL_ROWS]

theorem iAssigns_y (g : AGraph) (a : String × VPos) (h : a ∈ iAssigns g) :
    a.2.y ∈ LEVEL_ROWS "IMPLEMENTATION" := by
  rcases List.mem_flatMap.1 h with ⟨pr, _, h2⟩
  rcases List.mem_map.1 h2 with ⟨q, _, rfl⟩
  by_cases hq : q.1 % 2 = 0 <;> simp [hq, LEVEL_ROWS]

theorem bAssigns_keys_sub (g : AGraph) (k : String)
    (h : k ∈ (bAssigns g).map Prod.fst) : k ∈ businessIds g := by
  rcases List.mem_map.1 h with ⟨a, ha, rfl⟩
  rcases List.mem_map.1 ha with ⟨p, hp, rfl⟩
  have hmem : p.2 ∈ strSort (businessIds g) :=
    List.getElem?_mem (List.mem_enum_iff_getElem?.1 hp)
  exact (List.perm_insertionSort _ _).mem_iff.1 hmem

theorem bAssigns_covers (g : AGraph) (k : String) (h : k ∈ businessIds g) :
    k ∈ (bAssigns g).map Prod.fst := by
  have hmem : k ∈ strSort (businessIds g) :=
    (List.perm_insertionSort _ _).mem_iff.2 h
  rcases List.mem_iff_getElem.1 hmem with ⟨i, hi, rfl⟩
  have henum : (i, (strSort (businessIds g))[i]) ∈ (strSort (businessIds g)).enum :=
    List.mem_enum_iff_getElem?.2 (List.getElem?_eq_getElem hi)
  exact List.mem_map.2 ⟨_, List.mem_map.2 ⟨_, henum, rfl⟩, rfl⟩

theorem odict_fold_values (inputs : List String) (keyf : String → Option String)
    (acc : List (Option String × List String)) (P : String → Prop)
    (hacc : ∀ pr ∈ acc, ∀ x ∈ pr.2, P x) (hin : ∀ x ∈ inputs, P x) :
    ∀ pr ∈ inputs.foldl (fun acc v => odictAppend acc (keyf v) v) acc,
      ∀ x ∈ pr.2, P x := by
  induction inputs generalizing acc with
  | nil => exact hacc
  | cons a t ih =>
    rw [List.foldl_cons]
    refine ih _ ?_ (fun x hx => hin x (by simp [hx]))
    intro pr hpr x hx
    unfold odictAppend at hpr
    split at hpr
    · rcases List.mem_map.1 hpr with ⟨q, hq, rfl⟩
      by_cases hqk : q.1 = keyf a
      · rw [if_pos hqk] at hx
        rcases List.mem_append.1 hx with h1 | h1
        · exact hacc q hq x h1
        · rw [List.mem_singleton.1 h1]
          exact hin a (by simp)
      · rw [if_neg hqk] at hx
        exact hacc q hq x hx
    · rcases List.mem_append.1 hpr with h1 | h1
      · exact hacc pr h1 x hx
      · rw [List.mem_singleton.1 h1] at hx
        rw [List.mem_singleton.1 hx]
        exact hin a (by simp)

theorem odict_flat_superset (m : List (Option String × List String))
    (k : Option String) (v x : String)
    (h : x ∈ m.flatMap (fun pr => pr.2)) :
    x ∈ (odictAppend m k v).flatMap (fun pr => pr.2) := by
  rcases List.mem_flatMap.1 h with ⟨pr, hpr, hx⟩
  unfold odictAppend
  split
  · refine List.mem_flatMap.2
      ⟨(if pr.1 = k then (pr.1, pr.2 ++ [v]) else pr), List.mem_map.2 ⟨pr, hpr, rfl⟩, ?_⟩
    by_cases hk : pr.1 = k
    · rw [if_pos hk]
      exact List.mem_append.2 (Or.inl hx)
    · rw [if_neg hk]
      exact hx
  · exact List.mem_flatMap.2 ⟨pr, List.mem_append.2 (Or.inl hpr), hx⟩

theorem odict_flat_inserted (m : List (Option String × List String))
    (k : Option String) (v : String) :
    v ∈ (odictAppend m k v).flatMap (fun pr => pr.2) := by
  unfold odictAppend
  split
  · next hany =>
    rcases List.any_eq_true.1 hany with ⟨pr, hpr, hprk⟩
    have hk : pr.1 = k := of_decide_eq_true hprk
    refine List.mem_flatMap.2
      ⟨(pr.1, pr.2 ++ [v]), List.mem_map.2 ⟨pr, hpr, by rw [if_pos hk]⟩, by simp⟩
  · exact List.mem_flatMap.2 ⟨(k, [v]), by simp, by simp⟩

theorem odict_fold_flat_superset (inputs : List String)
    (keyf : String → Option String)
    (acc : List (Option String × List String)) (x : String)
    (h : x ∈ acc.flatMap (fun pr => pr.2)) :
    x ∈ (inputs.foldl (fun acc v => odictAppend acc (keyf v) v) acc).flatMap
      (fun pr => pr.2) := by
  induction inputs generalizing acc with
  | nil => exact h
  | cons a t ih =>
    rw [List.foldl_cons]
    exact ih _ (odict_flat_superset acc (keyf a) a x h)

theorem odict_fold_covers (inputs : List String) (keyf : String → Option String)
    (acc : List (Option String × List String)) (x : String) (hx : x ∈ inputs) :
    x ∈ (inputs.foldl (fun acc v => odictAppend acc (keyf v) v) acc).flatMap
      (fun pr => pr.2) := by
  rcases List.mem_iff_append.1 hx with ⟨l1, l2, rfl⟩
  rw [List.foldl_append, List.foldl_cons]
  exact odict_fold_flat_superset l2 keyf _ x (odict_flat_inserted _ (keyf x) x)

theorem sysGroups_values (g : AGraph) :
    ∀ pr ∈ sysGroups g, ∀ x ∈ pr.2, x ∈ systemIds g :=
  odict_fold_values (systemIds g) (parentOf g.edges) [] _
    (by simp) (fun x hx => hx)

theorem implGroups_values (g : AGraph) :
    ∀ pr ∈ implGroups g, ∀ x ∈ pr.2, x ∈ implIds g :=
  odict_fold_values (implIds g) (sysAncestor g) [] _
    (by simp) (fun x hx => hx)

theorem sAssigns_keys_sub (g : AGraph) (k : String)
    (h : k ∈ (sAssigns g).map Prod.fst) : k ∈ systemIds g := by
  rcases List.mem_map.1 h with ⟨a, ha, rfl⟩
  rcases List.mem_flatMap.1 ha with ⟨pr, hpr, h2⟩
  rcases List.mem_map.1 h2 with ⟨q, hq, rfl⟩
  have hmem : q.2 ∈ degreeCenterOrder pr.2 (vizEdges g) :=
    List.getElem?_mem (List.mem_enum_iff_getElem?.1 hq)
  exact sysGroups_values g pr hpr q.2 ((List.perm_insertionSort _ _).mem_iff.1 hmem)

theorem iAssigns_keys_sub (g : AGraph) (k : String)
    (h : k ∈ (iAssigns g).map Prod.fst) : k ∈ implIds g := by
  rcases List.mem_map.1 h with ⟨a, ha, rfl⟩
  rcases List.mem_flatMap.1 ha with ⟨pr, hpr, h2⟩
  rcases List.mem_map.1 h2 with ⟨q, hq, rfl⟩
  have hmem : q.2 ∈ degreeCenterOrder pr.2 (vizEdges g) :=
    List.getElem?_mem (List.mem_enum_iff_getElem?.1 hq)
  exact implGroups_values g pr hpr q.2 ((List.perm_insertionSort _ _).mem_iff.1 hmem)

theorem sAssigns_covers (g : AGraph) (k : String) (h : k ∈ systemIds g) :
    k ∈ (sAssigns g).map Prod.fst := by
  have hflat : k ∈ (sysGroups g).flatMap (fun pr => pr.2) :=
    odict_fold_covers (systemIds g) (parentOf g.edges) [] k h
  rcases List.mem_flatMap.1 hflat with ⟨pr, hpr, hk⟩
  have hmem : k ∈ degreeCenterOrder pr.2 (vizEdges g) :=
    (List.perm_insertionSort _ _).mem_iff.2 hk
  rcases List.mem_iff_getElem.1 hmem with ⟨i, hi, rfl⟩
  have henum : (i, (degreeCenterOrder pr.2 (vizEdges g))[i])
      ∈ (degreeCenterOrder pr.2 (vizEdges g)).enum :=
    List.mem_enum_iff_getElem?.2 (List.getElem?_eq_getElem hi)
  exact List.mem_map.2 ⟨_,
    List.mem_flatMap.2 ⟨pr, hpr, List.mem_map.2 ⟨_, henum, rfl⟩⟩, rfl⟩

theorem iAssigns_covers (g : AGraph) (k : String) (h : k ∈ implIds g) :
    k ∈ (iAssigns g).map Prod.fst := by
  have hflat : k ∈ (implGroups g).flatMap (fun pr => pr.2) :=
    odict_fold_covers (implIds g) (sysAncestor g) [] k h
  rcases List.mem_flatMap.1 hflat with ⟨pr, hpr, hk⟩
  have hmem : k ∈ degreeCenterOrder pr.2 (vizEdges g) :=
    (List.perm_insertionSort _ _).mem_iff.2 hk
  rcases List.mem_iff_getElem.1 hmem with ⟨i, hi, rfl⟩
  have henum : (i, (degreeCenterOrder pr.2 (vizEdges g))[i])
      ∈ (degreeCenterOrder pr.2 (vizEdges g)).enum :=
    List.mem_enum_iff_getElem?.2 (List.getElem?_eq_getElem hi)
  exact List.mem_map.2 ⟨_,
    List.mem_flatMap.2 ⟨pr, hpr, List.mem_map.2 ⟨_, henum, rfl⟩⟩, rfl⟩

theorem skeletonNode_id (g : AGraph) (nid : String) :
    (skeletonNode g nid).id = nid := by
  unfold skeletonNode
  split <;> rfl

theorem vizInsert_ids_superset (m : List VNode) (n : VNode) (x : String)
    (h : x ∈ m.map VNode.id) : x ∈ (vizInsert m n).map VNode.id := by
  unfold vizInsert
  split
  · rcases List.mem_map.1 h with ⟨u, hu, rfl⟩
    refine List.mem_map.2 ⟨(if u.id = n.id then n else u), List.mem_map.2 ⟨u, hu, rfl⟩, ?_⟩
    by_cases hid : u.id = n.id
    · rw [if_pos hid, hid]
    · rw [if_neg hid]
  · exact List.mem_map.2 (by
      rcases List.mem_map.1 h with ⟨u, hu, rfl⟩
      exact ⟨u, List.mem_append.2 (Or.inl hu), rfl⟩)

theorem vizInsert_self_id (m : List VNode) (n : VNode) :
    n.id ∈ (vizInsert m n).map VNode.id := by
  unfold vizInsert
  split
  · next hany =>
    rcases List.any_eq_true.1 hany with ⟨u, hu, hid⟩
    refine List.mem_map.2 ⟨n, List.mem_map.2 ⟨u, hu, ?_⟩, rfl⟩
    rw [if_pos (of_decide_eq_true hid)]
  · simp

theorem vizInsert_fold_ids_superset (l : List String) (g : AGraph)
    (acc : List VNode) (x : String) (h : x ∈ acc.map VNode.id) :
    x ∈ (l.foldl (fun acc nid => vizInsert acc (skeletonNode g nid)) acc).map
      VNode.id := by
  induction l generalizing acc with
  | nil => exact h
  | cons nid t ih =>
    rw [List.foldl_cons]
    exact ih _ (vizInsert_ids_superset acc _ x h)

theorem skeletonNodes_has_ids (g : AGraph) (nid : String)
    (h : nid ∈ businessIds g ++ systemIds g ++ implIds g) :
    nid ∈ (skeletonNodes g).map VNode.id := by
  unfold skeletonNodes
  rcases List.mem_iff_append.1 h with ⟨l1, l2, hsplit⟩
  rw [hsplit, List.foldl_append, List.foldl_cons]
  refine vizInsert_fold_ids_superset l2 g _ nid ?_
  have := vizInsert_self_id
    (l1.foldl (fun acc nid => vizInsert acc (skeletonNode g nid)) []) (skeletonNode g nid)
  rw [skeletonNode_id] at this
  exact this

theorem vizInsert_fold_sub (l : List String) (g : AGraph) (acc : List VNode)
    (v : VNode)
    (h : v ∈ l.foldl (fun acc nid => vizInsert acc (skeletonNode g nid)) acc) :
    v ∈ acc ∨ ∃ nid ∈ l, v = skeletonNode g nid := by
  induction l generalizing acc with
  | nil => exact Or.inl h
  | cons nid t ih =>
    rw [List.foldl_cons] at h
    rcases ih _ h with h1 | ⟨nid2, hnid2, rfl⟩
    · unfold vizInsert at h1
      split at h1
      · rcases List.mem_map.1 h1 with ⟨u, hu, rfl⟩
        by_cases hid : u.id = (skeletonNode g nid).id
        · rw [if_pos hid]
          exact Or.inr ⟨nid, by simp, rfl⟩
        · rw [if_neg hid]
          exact Or.inl hu
      · rcases List.mem_append.1 h1 with h2 | h2
        · exact Or.inl h2
        · exact Or.inr ⟨nid, by simp, List.mem_singleton.1 h2⟩
    · exact Or.inr ⟨nid2, List.mem_cons_of_mem nid hnid2, rfl⟩

theorem nodeById_unique (g : AGraph)
    (hnd : (g.nodes.map (fun n => n.id)).Nodup) (node : ANode)
    (hmem : node ∈ g.nodes) : nodeById g node.id = some node := by
  unfold nodeById
  rcases hfind : g.nodes.reverse.find? (fun n => n.id = node.id) with _ | m
  · exfalso
    have := List.find?_eq_none.1 hfind node (List.mem_reverse.2 hmem)
    simp at this
  · have hm : m ∈ g.nodes := List.mem_reverse.1 (List.mem_of_find?_eq_some hfind)
    have hid' := List.find?_some hfind
    have hid : m.id = node.id := of_decide_eq_true hid'
    have heq : m = node := List.inj_on_of_nodup_map hnd hm hmem hid
    rw [hfind, heq]
    rfl

theorem levelIds_node (g : AGraph) (lvl : String) (nid : String)
    (h : nid ∈ (g.nodes.filter (fun n => n.level = lvl)).map (fun n => n.id)) :
    ∃ node ∈ g.nodes, node.id = nid ∧ node.level = lvl := by
  rcases List.mem_map.1 h with ⟨node, hnode, rfl⟩
  rcases List.mem_filter.1 hnode with ⟨hmem, hlvl⟩
  exact ⟨node, hmem, rfl, of_decide_eq_true hlvl⟩

theorem skeletonNode_level (g : AGraph)
    (hnd : (g.nodes.map (fun n => n.id)).Nodup) (lvl nid : String)
    (h : ∃ node ∈ g.nodes, node.id = nid ∧ node.level = lvl) :
    (skeletonNode g nid).level = lvl := by
  rcases h with ⟨node, hmem, hid, hlvl⟩
  subst hid
  unfold skeletonNode
  rw [nodeById_unique g hnd node hmem]
  exact hlvl

theorem level_unique (g : AGraph)
    (hnd : (g.nodes.map (fun n => n.id)).Nodup) (nid lvl1 lvl2 : String)
    (h1 : ∃ node ∈ g.nodes, node.id = nid ∧ node.level = lvl1)
    (h2 : ∃ node ∈ g.nodes, node.id = nid ∧ node.level = lvl2) : lvl1 = lvl2 := by
  rcases h1 with ⟨n1, hm1, hi1, hl1⟩
  rcases h2 with ⟨n2, hm2, hi2, hl2⟩
  have : n1 = n2 := List.inj_on_of_nodup_map hnd hm1 hm2 (hi1.trans hi2.symm)
  rw [← hl1, ← hl2, this]

theorem stubInsert_ids_superset (m : List VNode) (n : VNode) (x : String)
    (h : x ∈ m.map VNode.id) : x ∈ (stubInsert m n).map VNode.id := by
  unfold stubInsert
  split
  · exact h
  · rw [List.map_append, List.mem_append]
    exact Or.inl h

theorem stub_fold_sub (ts : List (String × String × String))
    (m acc : List VNode) (v : VNode)
    (hsup : ∀ x ∈ m.map VNode.id, x ∈ acc.map VNode.id)
    (hbase : v ∈ acc →
      v ∈ m ∨ (v.level = "SYSTEM" ∧ v.pos = ⟨0, 390⟩ ∧ v.id ∉ m.map VNode.id))
    (h : v ∈ ts.foldl (fun acc t => stubInsert acc (stubNode t.2.1 t.2.2)) acc) :
    v ∈ m ∨ (v.level = "SYSTEM" ∧ v.pos = ⟨0, 390⟩ ∧ v.id ∉ m.map VNode.id) := by
  induction ts generalizing acc with
  | nil => exact hbase h
  | cons t rest ih =>
    rw [List.foldl_cons] at h
    refine ih _ (fun x hx => stubInsert_ids_superset acc _ x (hsup x hx)) ?_ h
    intro hv
    unfold stubInsert at hv
    split at hv
    · exact hbase hv
    · next hany =>
      rcases List.mem_append.1 hv with h1 | h1
      · exact hbase h1
      · rw [List.mem_singleton.1 h1]
        refine Or.inr ⟨rfl, rfl, ?_⟩
        intro hc
        exact absurd (List.any_eq_true.2 (by
          rcases List.mem_map.1 (hsup _ hc) with ⟨u, hu, hid⟩
          exact ⟨u, hu, by simp [hid]⟩)) hany

theorem stubPhase_sub (g : AGraph) (m : List VNode) (v : VNode)
    (h : v ∈ stubPhaseNodes g m) :
    v ∈ m ∨ (v.level = "SYSTEM" ∧ v.pos = ⟨0, 390⟩ ∧ v.id ∉ m.map VNode.id) :=
  stub_fold_sub (stubTriples g) m m v (fun x hx => hx) (fun hv => Or.inl hv) h

/-- C9: under unique node ids, every node of the computed layout has a y
coordinate drawn from the two rows reserved for its level (external stubs
are SYSTEM-level nodes fixed on the lower SYSTEM row), and the three row
sets are pairwise disjoint. -/
theorem claim_C9_thm (g : AGraph)
    (hnd : (g.nodes.map (fun n => n.id)).Nodup) :
    (∀ v ∈ (buildViz g).nodes, v.pos.y ∈ LEVEL_ROWS v.level)
    ∧ (∀ y1 ∈ LEVEL_ROWS "BUSINESS",
        y1 ∉ LEVEL_ROWS "SYSTEM" ∧ y1 ∉ LEVEL_ROWS "IMPLEMENTATION")
    ∧ (∀ y1 ∈ LEVEL_ROWS "SYSTEM", y1 ∉ LEVEL_ROWS "IMPLEMENTATION") := by
  refine ⟨?_, by decide, by decide⟩
  intro v hv
  have hv3 : v ∈ applyAssigns
      (applyAssigns
        (applyAssigns (stubPhaseNodes g (skeletonNodes g)) (bAssigns g))
        (sAssigns g))
      (iAssigns g) := hv
  rcases applyAssigns_mem _ _ _ hv3 with ⟨u2, hu2, hid3, hlv3, _⟩
  rcases applyAssigns_mem _ _ _ hu2 with ⟨u1, hu1, hid2, hlv2, _⟩
  rcases applyAssigns_mem _ _ _ hu1 with ⟨u0, hu0, hid1, hlv1, _⟩
  have hid : v.id = u0.id := (hid3.trans hid2).trans hid1
  have hlv : v.level = u0.level := (hlv3.trans hlv2).trans hlv1
  rcases stubPhase_sub g _ u0 hu0 with hskel | ⟨hslv, hspos, hsid⟩
  · -- skeleton node: positioned by its level's layout pass
    rcases vizInsert_fold_sub _ g [] u0 hskel with habs | ⟨nid, hnid, rfl⟩
    · exact absurd habs (List.not_mem_nil u0)
    have hid' : v.id = nid := hid.trans (skeletonNode_id g nid)
    rcases List.mem_append.1 hnid with hbs | himpl
    · rcases List.mem_append.1 hbs with hb | hs
      · -- BUSINESS
        have hex := levelIds_node g "BUSINESS" nid hb
        have hlvl : (skeletonNode g nid).level = "BUSINESS" :=
          skeletonNode_level g hnd "BUSINESS" nid hex
        have hnotS : nid ∉ systemIds g := by
          intro hcon
          have hex2 := levelIds_node g "SYSTEM" nid hcon
          exact absurd (level_unique g hnd nid _ _ hex hex2) (by decide)
        have hnotI : nid ∉ implIds g := by
          intro hcon
          have hex2 := levelIds_node g "IMPLEMENTATION" nid hcon
          exact absurd (level_unique g hnd nid _ _ hex hex2) (by decide)
        have hv2 : v ∈ applyAssigns
            (applyAssigns (stubPhaseNodes g (skeletonNodes g)) (bAssigns g))
            (sAssigns g) := by
          refine applyAssigns_untouched _ _ _ hv3 ?_
          intro hc
          exact hnotI (iAssigns_keys_sub g nid (hid' ▸ hc))
        have hv1 : v ∈ applyAssigns (stubPhaseNodes g (skeletonNodes g))
            (bAssigns g) := by
          refine applyAssigns_untouched _ _ _ hv2 ?_
          intro hc
          exact hnotS (sAssigns_keys_sub g nid (hid' ▸ hc))
        rcases applyAssigns_pos_of_key _ _ _ hv1
          (hid' ▸ bAssigns_covers g nid hb) with ⟨a, ha, _, hpos⟩
        rw [hlv, hlvl, hpos]
        exact bAssigns_y g a ha
      · -- SYSTEM
        have hex := levelIds_node g "SYSTEM" nid hs
        have hlvl : (skeletonNode g nid).level = "SYSTEM" :=
          skeletonNode_level g hnd "SYSTEM" nid hex
        have hnotI : nid ∉ implIds g := by
          intro hcon
          have hex2 := levelIds_node g "IMPLEMENTATION" nid hcon
          exact absurd (level_unique g hnd nid _ _ hex hex2) (by decide)
        have hv2 : v ∈ applyAssigns
            (applyAssigns (stubPhaseNodes g (skeletonNodes g)) (bAssigns g))
            (sAssigns g) := by
          refine applyAssigns_untouched _ _ _ hv3 ?_
          intro hc
          exact hnotI (iAssigns_keys_sub g nid (hid' ▸ hc))
        rcases applyAssigns_pos_of_key _ _ _ hv2
          (hid' ▸ sAssigns_covers g nid hs) with ⟨a, ha, _, hpos⟩
        rw [hlv, hlvl, hpos]
        exact sAssigns_y g a ha
    · -- IMPLEMENTATION
      have hex := levelIds_node g "IMPLEMENTATION" nid himpl
      have hlvl : (skeletonNode g nid).level = "IMPLEMENTATION" :=
        skeletonNode_level g hnd "IMPLEMENTATION" nid hex
      rcases applyAssigns_pos_of_key _ _ _ hv3
        (hid' ▸ iAssigns_covers g nid himpl) with ⟨a, ha, _, hpos⟩
      rw [hlv, hlvl, hpos]
      exact iAssigns_y g a ha
  · -- fresh stub node: untouched by every layout pass
    have hnotB : v.id ∉ (bAssigns g).map Prod.fst := by
      intro hc
      exact hsid (hid ▸ skeletonNodes_has_ids g v.id
        (List.mem_append.2 (Or.inl (List.mem_append.2 (Or.inl
          (bAssigns_keys_sub g v.id hc))))))
    have hnotS : v.id ∉ (sAssigns g).map Prod.fst := by
      intro hc
      exact hsid (hid ▸ skeletonNodes_has_ids g v.id
        (List.mem_append.2 (Or.inl (List.mem_append.2 (Or.inr
          (sAssigns_keys_sub g v.id hc))))))
    have hnotI : v.id ∉ (iAssigns g).map Prod.fst := by
      intro hc
      exact hsid (hid ▸ skeletonNodes_has_ids g v.id
        (List.mem_append.2 (Or.inr (iAssigns_keys_sub g v.id hc))))
    have hvbase : v ∈ stubPhaseNodes g (skeletonNodes g) :=
      applyAssigns_untouched _ _ _
        (applyAssigns_untouched _ _ _
          (applyAssigns_untouched _ _ _ hv3 hnotI) hnotS) hnotB
    rcases stubPhase_sub g _ v hvbase with hvskel | ⟨h1, h2, _⟩
    · exact absurd (hid ▸ List.mem_map.2 ⟨v, hvskel, rfl⟩) hsid
    · rw [h1, h2]
      decide

theorem claim_C9_witness :
    (⟨"b", "biz", "BUSINESS", false, ⟨400, 150⟩⟩ : VNode).pos.y
      ∈ LEVEL_ROWS (⟨"b", "biz", "BUSINESS", false, ⟨400, 150⟩⟩ : VNode).level :=
  (claim_C9_thm cg2 (by decide)).1 ⟨"b", "biz", "BUSINESS", false, ⟨400, 150⟩⟩
    (by decide)
